import Mathlib

/-!
# smallsh: a shallow embedding of `smallsh.c`

The shell keeps three pieces of process-wide state (`exitStatus`, `sigNum`,
`fgMode`) and a table of background pids owned by `main`.  Everything the
program prints or asks of the kernel is recorded, in program order, in a
trace of events.  Pointers into the command buffer are offsets, `NULL` is
`none`, and an access outside an array is a fault (undefined behaviour in C).
-/

namespace Smallsh

/-! ## Constants -/

/-- Size of the command buffer `inputCmd` (`#define MAX_CMD_SIZE 2049`). -/
def MAX_CMD_SIZE : Nat := 2049

/-- Number of slots of `cmdLine.args` (`#define MAX_ARGS 512`). -/
def MAX_ARGS : Nat := 512

/-- Number of slots of the job table (`#define MAX_BG_PROCESSES 100`). -/
def MAX_BG_PROCESSES : Nat := 100

/-! ## Output and events -/

/-- One constructor per `printf`/`perror`/`write` call site that the shell
reaches; `%d` and `%s` arguments are carried as data, and so is the text
`strerror(errno)` that `perror` appends to its argument. -/
inductive Msg where
  | exitValue (n : Int)
  | terminatedBySignal (n : Int)
  | backgroundPidIs (pid : Int)
  | backgroundPidDone (pid : Int)
  | cannotOpen (path : List Char)
  | noSuchFile (prog : List Char)
  | forkFailed (errnoText : List Char)
  | enteringFgOnly
  | exitingFgOnly
  deriving DecidableEq, Repr

/-- The text each message stands for, as given by the format strings. -/
def Msg.text : Msg → String
  | .exitValue n => "exit value " ++ toString n ++ "\n"
  | .terminatedBySignal n => "terminated by signal " ++ toString n ++ "\n"
  | .backgroundPidIs pid => "background pid is " ++ toString pid ++ "\n"
  | .backgroundPidDone pid => "background pid " ++ toString pid ++ " is done: "
  | .cannotOpen path => "cannot open " ++ String.mk path ++ " for input\n"
  | .noSuchFile prog => String.mk prog ++ ": No such file or directory\n"
  | .forkFailed errnoText => "fork() failed!\n: " ++ String.mk errnoText ++ "\n"
  | .enteringFgOnly => "Entering foreground-only mode (& is now ignored)\n"
  | .exitingFgOnly => "Exiting foreground-only mode\n"

/-- What the parent does that is visible outside of its own memory. -/
inductive Event where
  | stdout (m : Msg)
  | stderr (m : Msg)
  | waitpid (pid : Int) (nohang : Bool)
  | kill (pid : Int)
  | chdir (path : Option (List Char))
  deriving DecidableEq, Repr

/-- The macros of `<sys/wait.h>` that decode a wait status.  They come from
the system headers, so the shell is modelled over any implementation. -/
structure WaitMacros where
  WIFEXITED : Int → Bool
  WEXITSTATUS : Int → Int
  WTERMSIG : Int → Int

/-- The decoding used by glibc on Linux: `WTERMSIG(s) = s & 0x7f`,
`WIFEXITED(s) = (WTERMSIG(s) == 0)`, `WEXITSTATUS(s) = (s & 0xff00) >> 8`. -/
def glibcWait : WaitMacros where
  WIFEXITED s := s % 128 == 0
  WEXITSTATUS s := (s / 256) % 256
  WTERMSIG s := s % 128

/-- POSIX: an exit status is the low eight bits of the exit code and a
terminating signal is a signal number, so neither is negative. -/
def WaitMacros.Posix (W : WaitMacros) : Prop :=
  ∀ s : Int, 0 ≤ W.WEXITSTATUS s ∧ 0 ≤ W.WTERMSIG s

/-! ## Shell state -/

/-- The globals `exitStatus`, `sigNum`, `fgMode`, the job table
`bgProcesses` of `main`, and the trace of events so far. -/
structure Shell where
  exitStatus : Int
  sigNum : Int
  fgMode : Bool
  bgProcesses : List Int
  trace : List Event
  deriving DecidableEq, Repr

/-- State at the first prompt: the initialisers of the globals and
`int bgProcesses[MAX_BG_PROCESSES] = {0}`. -/
def Shell.init : Shell where
  exitStatus := 0
  sigNum := -5
  fgMode := false
  bgProcesses := List.replicate MAX_BG_PROCESSES 0
  trace := []

/-- Append one event to the trace. -/
def Shell.emit (st : Shell) (e : Event) : Shell :=
  { st with trace := st.trace ++ [e] }

/-- Source `catchSIGTSTP`, the handler of SIGTSTP in the shell itself. -/
def catchSIGTSTP (st : Shell) : Shell :=
  if !st.fgMode then { st.emit (Event.stdout Msg.enteringFgOnly) with fgMode := true }
  else { st.emit (Event.stdout Msg.exitingFgOnly) with fgMode := false }

/-! ## Status register -/

/-- Source `printStatus`: the messages it prints for the given globals. -/
def printStatusMsgs (exitStatus sigNum : Int) : List Msg :=
  if exitStatus ≥ 0 then [Msg.exitValue exitStatus]
  else if sigNum ≥ 0 then [Msg.terminatedBySignal sigNum]
  else []

/-- Source `printStatus`. -/
def printStatus (st : Shell) : Shell :=
  { st with trace := st.trace ++ (printStatusMsgs st.exitStatus st.sigNum).map Event.stdout }

/-- Source `setStatus`. -/
def setStatus (W : WaitMacros) (st : Shell) (childExitMethod : Int) : Shell :=
  if W.WIFEXITED childExitMethod then
    { st with exitStatus := W.WEXITSTATUS childExitMethod, sigNum := -5 }
  else
    { st with sigNum := W.WTERMSIG childExitMethod, exitStatus := -5 }

/-! ## Job table -/

/-- The `for` loop of `addBgProcess`, with `n` iterations left from index `i`. -/
def addBgLoop (bgPid : Int) : Nat → Nat → List Int → List Int
  | 0, _, bgProcesses => bgProcesses
  | n + 1, i, bgProcesses =>
    if bgProcesses.getD i 0 = 0 then bgProcesses.set i bgPid
    else addBgLoop bgPid n (i + 1) bgProcesses

/-- Source `addBgProcess`. -/
def addBgProcess (bgProcesses : List Int) (bgPid : Int) : List Int :=
  addBgLoop bgPid MAX_BG_PROCESSES 0 bgProcesses

/-- Result of `waitpid(pid, &childExitMethod, WNOHANG)` issued for slot `i`:
the returned value and the status written. -/
abbrev Poll := Nat → Int → Int × Int

/-- Body of the `for` loop of `waitBg` at index `i`. -/
def waitBgBody (W : WaitMacros) (poll : Poll) (i : Nat) (st : Shell) : Shell :=
  let pid := st.bgProcesses.getD i 0
  if pid > 0 then
    let r := poll i pid
    let st := st.emit (Event.waitpid pid true)
    if r.1 > 0 then
      let st := { st with bgProcesses := st.bgProcesses.set i 0 }
      let st := st.emit (Event.stdout (Msg.backgroundPidDone r.1))
      if W.WIFEXITED r.2 then st.emit (Event.stdout (Msg.exitValue (W.WEXITSTATUS r.2)))
      else st.emit (Event.stdout (Msg.terminatedBySignal (W.WTERMSIG r.2)))
    else st
  else st

/-- The `for` loop of `waitBg`, with `n` iterations left from index `i`. -/
def waitBgLoop (W : WaitMacros) (poll : Poll) : Nat → Nat → Shell → Shell
  | 0, _, st => st
  | n + 1, i, st => waitBgLoop W poll n (i + 1) (waitBgBody W poll i st)

/-- Source `waitBg`. -/
def waitBg (W : WaitMacros) (poll : Poll) (st : Shell) : Shell :=
  waitBgLoop W poll MAX_BG_PROCESSES 0 st

/-- The `for` loop of `killBgProcesses`. -/
def killBgLoop : Nat → Nat → Shell → Shell
  | 0, _, st => st
  | n + 1, i, st =>
    let pid := st.bgProcesses.getD i 0
    killBgLoop n (i + 1) (if pid > 0 then st.emit (Event.kill pid) else st)

/-- Source `killBgProcesses`. -/
def killBgProcesses (st : Shell) : Shell :=
  killBgLoop MAX_BG_PROCESSES 0 st

/-! ## C strings and the parser -/

/-- The character that ends a C string. -/
def NUL : Char := Char.ofNat 0

/-- The C string that starts at offset `p` of the buffer: the characters up
to the next NUL. -/
def cstr (buf : List Char) (p : Nat) : List Char :=
  (buf.drop p).takeWhile (fun c => c != NUL)

/-- C `strlen` of the buffer.  Without a NUL in the buffer the scan leaves
the array, which is a fault. -/
def strlen (buf : List Char) : Option Nat :=
  if NUL ∈ buf then some (cstr buf 0).length else none

/-- Source `struct cmdLine`.  A `char *` into `inputCmd` is the offset it
points at, `NULL` is `none`. -/
structure cmdLine where
  cmd : Option Nat
  args : List (Option Nat)
  argCount : Nat
  inputFile : Option Nat
  outputFile : Option Nat
  bgMode : Bool
  deriving DecidableEq, Repr

/-- Source `initCmd`; the field `cmd` is left unset there. -/
def initCmd : cmdLine where
  cmd := none
  args := List.replicate MAX_ARGS none
  argCount := 1
  inputFile := none
  outputFile := none
  bgMode := false

/-- The variables the loop of `parseCmd` works on: the buffer it writes NULs
into, the command being filled in, and `redirSeen`. -/
structure ParseState where
  inputCmd : List Char
  currCmd : cmdLine
  redirSeen : Bool
  deriving DecidableEq, Repr

/-- Body of the `for` loop of `parseCmd` at index `i`.  Storing an argument
at an index outside `args` is a fault. -/
def parseBody (cmdLen i : Nat) (s : ParseState) : Option ParseState :=
  if s.inputCmd.getD i NUL = ' ' then
    let buf := s.inputCmd.set i NUL
    if i + 1 = cmdLen - 1 ∧ buf.getD (i + 1) NUL = '&' then
      some { s with inputCmd := buf, currCmd := { s.currCmd with bgMode := true } }
    else if buf.getD (i + 1) NUL ≠ '<' ∧ buf.getD (i + 1) NUL ≠ '>' ∧ s.redirSeen = false then
      if s.currCmd.argCount < MAX_ARGS then
        some { s with
          inputCmd := buf
          currCmd := { s.currCmd with
            args := s.currCmd.args.set s.currCmd.argCount (some (i + 1))
            argCount := s.currCmd.argCount + 1 } }
      else none
    else some { s with inputCmd := buf }
  else if s.inputCmd.getD i NUL = '<' then
    some { s with currCmd := { s.currCmd with inputFile := some (i + 2) }, redirSeen := true }
  else if s.inputCmd.getD i NUL = '>' then
    some { s with currCmd := { s.currCmd with outputFile := some (i + 2) }, redirSeen := true }
  else some s

/-- The `for` loop of `parseCmd`, with `n` iterations left from index `i`. -/
def parseLoop (cmdLen : Nat) : Nat → Nat → ParseState → Option ParseState
  | 0, _, s => some s
  | n + 1, i, s =>
    match parseBody cmdLen i s with
    | none => none
    | some s1 => parseLoop cmdLen n (i + 1) s1

/-- Source `parseCmd`: the command and the buffer as the call leaves it. -/
def parseCmd (inputCmd : List Char) : Option (cmdLine × List Char) :=
  match strlen inputCmd with
  | none => none
  | some cmdLen =>
    let currCmd := { initCmd with cmd := some 0, args := initCmd.args.set 0 (some 0) }
    match parseLoop cmdLen cmdLen 0 { inputCmd := inputCmd, currCmd := currCmd, redirSeen := false } with
    | none => none
    | some s => some (s.currCmd, s.inputCmd)

/-! ## Reading a parsed command, and auxiliary notions for the parser

None of the definitions below is code of the shell: `argv` and `strAt` read
the strings a command points at, `splitOnSpace`, `lastToken`, `Plain`,
`joinTokens`, `manyTokens`, `storingSpaces`, `redirTokens` and `lastTarget`
describe lines, and `scanStep`,
`scan`, `spaceOffsets`, `pushArgs` and `fires` restate the loop of `parseCmd`
over the characters of the line, which the theorems relate to `parseLoop`. -/

/-- The strings `args[0] .. args[argCount-1]` of a command, read in the
buffer `buf`. -/
def argv (buf : List Char) (c : cmdLine) : List (Option (List Char)) :=
  (c.args.take c.argCount).map (Option.map (cstr buf))

/-- The string a `char *` field of a command points at, `none` for `NULL`. -/
def strAt (buf : List Char) (p : Option Nat) : Option (List Char) :=
  p.map (cstr buf)

/-- The list obtained by splitting a line at every single space. -/
def splitOnSpace : List Char → List (List Char)
  | [] => [[]]
  | c :: cs =>
    if c = ' ' then [] :: splitOnSpace cs
    else match splitOnSpace cs with
      | [] => [[c]]
      | t :: ts => (c :: t) :: ts

/-- What the parser does to a character of the line: a space becomes NUL. -/
def blank (c : Char) : Char := if c = ' ' then NUL else c

/-- The effect of `parseBody` on the command and on `redirSeen`, given the
character `c` at index `i` and the character `nxt` that follows it. -/
def scanStep (cmdLen i : Nat) (c nxt : Char) (cmd : cmdLine) (rs : Bool) :
    Option (cmdLine × Bool) :=
  if c = ' ' then
    if i + 1 = cmdLen - 1 ∧ nxt = '&' then some ({ cmd with bgMode := true }, rs)
    else if nxt ≠ '<' ∧ nxt ≠ '>' ∧ rs = false then
      if cmd.argCount < MAX_ARGS then
        some ({ cmd with args := cmd.args.set cmd.argCount (some (i + 1))
                         argCount := cmd.argCount + 1 }, rs)
      else none
    else some (cmd, rs)
  else if c = '<' then some ({ cmd with inputFile := some (i + 2) }, true)
  else if c = '>' then some ({ cmd with outputFile := some (i + 2) }, true)
  else some (cmd, rs)

/-- The loop of `parseCmd` seen from the characters still to visit (`todo`,
the first of them at index `i`) and those that follow them (`after`). -/
def scan (cmdLen : Nat) : List Char → List Char → Nat → cmdLine → Bool → Option (cmdLine × Bool)
  | [], _, _, cmd, rs => some (cmd, rs)
  | c :: cs, after, i, cmd, rs =>
    match scanStep cmdLen i c ((cs ++ after).headD NUL) cmd rs with
    | none => none
    | some r => scan cmdLen cs after (i + 1) r.1 r.2

/-- The command as `parseCmd` has it when its loop starts. -/
def startCmd : cmdLine :=
  { initCmd with cmd := some 0, args := initCmd.args.set 0 (some 0) }

/-- Offsets of the characters that follow a space, for a text whose first
character is at offset `i`. -/
def spaceOffsets : List Char → Nat → List Nat
  | [], _ => []
  | c :: cs, i => if c = ' ' then (i + 1) :: spaceOffsets cs (i + 1) else spaceOffsets cs (i + 1)

/-- Store the given offsets as the next arguments of a command. -/
def pushArgs (cmd : cmdLine) : List Nat → cmdLine
  | [] => cmd
  | o :: os =>
    pushArgs { cmd with args := cmd.args.set cmd.argCount (some o), argCount := cmd.argCount + 1 } os

/-- Some space among the characters still to visit is the last but one
character of the line and is followed by `&`. -/
def fires (cmdLen : Nat) : List Char → List Char → Nat → Bool
  | [], _, _ => false
  | c :: cs, after, i =>
    (decide (c = ' ') && decide (i + 1 = cmdLen - 1) && decide ((cs ++ after).headD NUL = '&'))
      || fires cmdLen cs after (i + 1)

/-- The number of spaces of a text that make the parser store an argument:
those that come before every redirection operator and are not directly
followed by one. -/
def storingSpaces : List Char → Nat
  | [] => 0
  | c :: cs =>
    if c = '<' ∨ c = '>' then 0
    else (if c = ' ' ∧ cs.head? ≠ some '<' ∧ cs.head? ≠ some '>' then 1 else 0)
      + storingSpaces cs

/-- Tokens written one after the other, each after a space. -/
def joinTokens : List (List Char) → List Char
  | [] => []
  | t :: ts => ' ' :: t ++ joinTokens ts

/-- The token `a` written `n + 1` times, with single spaces in between. -/
def manyTokens (n : Nat) : List Char :=
  'a' :: joinTokens (List.replicate n ['a'])

/-- The last space-delimited token of a line. -/
def lastToken (line : List Char) : List Char :=
  ((splitOnSpace line).getLast?).getD []

/-- Disposition of a signal: default action, ignored, or the handler
`catchSIGTSTP`. -/
inductive Disposition where
  | SIG_DFL
  | SIG_IGN
  | handler
  deriving DecidableEq, Repr

/-- What a standard stream of a process is connected to. -/
inductive Target where
  | inherited
  | file (path : List Char)
  | devNull
  deriving DecidableEq, Repr

/-- How the child branch ends: still running (it has not ended yet), its
image replaced by a program, terminated by `exit`, or in a fault (a read
outside an array). -/
inductive ChildEnd where
  | running
  | image (prog : Option (List Char)) (args : List (Option (List Char)))
  | exited (code : Int)
  | fault
  deriving DecidableEq, Repr

/-- The state of the forked child that the shell's code acts on. -/
structure Child where
  sigint : Disposition
  sigtstp : Disposition
  stdin : Target
  stdout : Target
  exitStatus : Int
  out : List Msg
  ended : ChildEnd
  deriving DecidableEq, Repr

/-- The child right after `fork`: it has the dispositions `main` installed
(SIGINT ignored, SIGTSTP handled by `catchSIGTSTP`), the shell's streams and
a copy of `exitStatus`. -/
def Child.forked (st : Shell) : Child where
  sigint := Disposition.SIG_IGN
  sigtstp := Disposition.handler
  stdin := Target.inherited
  stdout := Target.inherited
  exitStatus := st.exitStatus
  out := []
  ended := ChildEnd.running

/-- What the shell and its child meet outside of the program: the result of
`open` for a path (`true` for writing), a descriptor or -1, whether `execvp`
finds the program, and the text of `errno` after a failed `fork`. -/
structure ChildEnv where
  openFd : List Char → Bool → Int
  execOk : Bool
  forkErrno : List Char

/-- The path `"/dev/null"`. -/
def devNullPath : List Char := "/dev/null".toList

/-- C `dup2(fd, n)` on the stream `n`: with a bad descriptor the stream
stays as it is. -/
def dup2 (fd : Int) (src old : Target) : Target :=
  if fd < 0 then old else src

/-- The first half of source `redir`: standard input. -/
def redirInput (env : ChildEnv) (buf : List Char) (currCmd : cmdLine) (ch : Child) : Child :=
  match currCmd.inputFile with
  | some p =>
    let sourceFD := env.openFd (cstr buf p) false
    if sourceFD = -1 then
      { ch with out := ch.out ++ [Msg.cannotOpen (cstr buf p)], exitStatus := 1,
                ended := ChildEnd.exited 1 }
    else { ch with stdin := dup2 sourceFD (Target.file (cstr buf p)) ch.stdin }
  | none =>
    if currCmd.bgMode then
      let sourceFD := env.openFd devNullPath false
      { ch with stdin := dup2 sourceFD Target.devNull ch.stdin }
    else ch

/-- The second half of source `redir`: standard output. -/
def redirOutput (env : ChildEnv) (buf : List Char) (currCmd : cmdLine) (ch : Child) : Child :=
  match currCmd.outputFile with
  | some p =>
    let targetFD := env.openFd (cstr buf p) true
    if targetFD = -1 then
      { ch with out := ch.out ++ [Msg.cannotOpen (cstr buf p)], exitStatus := 1,
                ended := ChildEnd.exited 1 }
    else { ch with stdout := dup2 targetFD (Target.file (cstr buf p)) ch.stdout }
  | none =>
    if currCmd.bgMode then
      let targetFD := env.openFd devNullPath true
      { ch with stdout := dup2 targetFD Target.devNull ch.stdout }
    else ch

/-- Source `redir`; `exit(1)` in its first half ends the child there. -/
def redir (env : ChildEnv) (buf : List Char) (currCmd : cmdLine) (ch : Child) : Child :=
  let ch1 := redirInput env buf currCmd ch
  if ch1.ended = ChildEnd.running then redirOutput env buf currCmd ch1 else ch1

/-- Source `execute`.  `execvp` reads `args` up to its first `NULL`; when all
the slots of `args` hold a pointer it reads past the array, a fault. -/
def execute (env : ChildEnv) (buf : List Char) (currCmd : cmdLine) (ch : Child) : Child :=
  if currCmd.args.all Option.isSome then { ch with ended := ChildEnd.fault }
  else if env.execOk then
    { ch with ended := ChildEnd.image (strAt buf (currCmd.args.headD none))
                ((currCmd.args.takeWhile Option.isSome).map (strAt buf)) }
  else
    { ch with out := ch.out ++ [Msg.noSuchFile ((strAt buf (currCmd.args.headD none)).getD [])],
              exitStatus := 1, ended := ChildEnd.exited 1 }

/-- The `case 0:` branch of the `switch` in `main`. -/
def childBranch (env : ChildEnv) (st : Shell) (buf : List Char) (currCmd : cmdLine) : Child :=
  let ch := { Child.forked st with sigtstp := Disposition.SIG_IGN }
  let ch := if !currCmd.bgMode then { ch with sigint := Disposition.SIG_DFL } else ch
  let ch := redir env buf currCmd ch
  if ch.ended = ChildEnd.running then execute env buf currCmd ch else ch

/-! ## The parent and the dispatch of a command -/

/-- The `default:` branch of the `switch` in `main`; `childExitMethod` is
the status the blocking `waitpid` delivers. -/
def parentBranch (W : WaitMacros) (poll : Poll) (st : Shell) (currCmd : cmdLine)
    (spawnPid childExitMethod : Int) : Shell :=
  let st1 :=
    if !currCmd.bgMode || st.fgMode then
      let s := st.emit (Event.waitpid spawnPid false)
      let s := setStatus W s childExitMethod
      if s.sigNum ≥ 0 then printStatus s else s
    else
      let s := st.emit (Event.stdout (Msg.backgroundPidIs spawnPid))
      { s with bgProcesses := addBgProcess s.bgProcesses spawnPid }
  waitBg W poll st1

/-- Source `changeDir`. -/
def changeDir (st : Shell) (buf : List Char) (currCmd : cmdLine) : Shell :=
  match currCmd.args.getD 1 none with
  | some p => st.emit (Event.chdir (some (cstr buf p)))
  | none => st.emit (Event.chdir none)

/-- Where one command leaves the program: back at the prompt, the shell
terminated, or, in the forked child, the child's own fate. -/
inductive Next where
  | prompt (st : Shell)
  | exited (st : Shell) (code : Int)
  | child (ch : Child)
  deriving DecidableEq, Repr

/-- The part of the loop of `main` that follows `parseCmd`: the builtins,
then `fork` (which returns `spawnPid`) and the `switch` on its result. -/
def dispatch (W : WaitMacros) (poll : Poll) (env : ChildEnv) (st : Shell) (buf : List Char)
    (currCmd : cmdLine) (spawnPid childExitMethod : Int) : Next :=
  if strAt buf currCmd.cmd = some "exit".toList then Next.exited (killBgProcesses st) 0
  else if strAt buf currCmd.cmd = some "cd".toList then Next.prompt (changeDir st buf currCmd)
  else if strAt buf currCmd.cmd = some "status".toList then Next.prompt (printStatus st)
  else if spawnPid = -1 then
    Next.exited (st.emit (Event.stderr (Msg.forkFailed env.forkErrno))) 1
  else if spawnPid = 0 then Next.child (childBranch env st buf currCmd)
  else Next.prompt (parentBranch W poll st currCmd spawnPid childExitMethod)

/-- A sample environment: every `open` succeeds with descriptor 3 and the
program is found. -/
def okEnv : ChildEnv where
  openFd := fun _ _ => 3
  execOk := true
  forkErrno := "Resource temporarily unavailable".toList

/-- A sample round of checks in which no child has terminated. -/
def noneDone : Poll := fun _ _ => (0, 0)

/-- The shell after one SIGTSTP received at the first prompt: it is in
foreground-only mode. -/
def fgOnlyShell : Shell := catchSIGTSTP Shell.init

/-- The command buffer holding the line `sleep 5 &`. -/
def sleepLine : List Char := "sleep 5 &".toList ++ [NUL]

/-! ## Variable expansion -/

/-- C `strstr` on string contents: the offset of the first occurrence of
`needle` in `hay`, `none` for `NULL`. -/
def strstr : List Char → List Char → Option Nat
  | [], needle => if needle.isEmpty then some 0 else none
  | c :: cs, needle =>
    if needle.isPrefixOf (c :: cs) then some 0
    else (strstr cs needle).map (fun i => i + 1)

/-- C `memmove(buf + dst, buf + src, n)` inside one array; a range outside
the array is a fault. -/
def memmove (buf : List Char) (dst src n : Nat) : Option (List Char) :=
  if src + n ≤ buf.length ∧ dst + n ≤ buf.length then
    some (buf.take dst ++ (buf.drop src).take n ++ buf.drop (dst + n))
  else none

/-- C `memmove(buf + dst, data, strlen(data))` from another array. -/
def memmoveFrom (buf : List Char) (dst : Nat) (data : List Char) : Option (List Char) :=
  if dst + data.length ≤ buf.length then
    some (buf.take dst ++ data ++ buf.drop (dst + data.length))
  else none

/-- Source `varExp` on the array `src`, with the contents of the strings
`var` and `exp`: the returned value and the array as the call leaves it. -/
def varExp (src var exp : List Char) : Option (Int × List Char) :=
  if NUL ∈ src then
    match strstr (cstr src 0) var with
    | none => some (0, src)
    | some varP =>
      let strToShift := varP + var.length
      let sizeOfStr := (cstr src varP).length - var.length + 1
      let offset := varP + exp.length
      match memmove src offset strToShift sizeOfStr with
      | none => none
      | some shifted =>
        match memmoveFrom shifted varP exp with
        | none => none
        | some replaced => some (1, replaced)
  else none

/-- The variable `$$`. -/
def marker : List Char := ['$', '$']

/-- How a run of a loop ends: with a result, in a fault, or because the
iterations allowed to it did not suffice. -/
inductive Run (α : Type) where
  | ok (a : α)
  | fault
  | outOfFuel
  deriving DecidableEq, Repr

/-- The loop `while(varExp(inputCmd, "$$", pid));` of `main`, allowed `fuel`
calls of `varExp`. -/
def expandLoop : Nat → List Char → List Char → Run (List Char)
  | 0, _, _ => Run.outOfFuel
  | fuel + 1, inputCmd, pid =>
    match varExp inputCmd marker pid with
    | none => Run.fault
    | some r => if r.1 = 0 then Run.ok r.2 else expandLoop fuel r.2 pid

/-! ## Auxiliary notions for variable expansion

The definitions below describe lines and are not code of the shell. -/

/-- The pieces of a line between the occurrences of `$$`, taken from left
to right without overlap. -/
def splitAtMarker : List Char → List (List Char)
  | [] => [[]]
  | [c] => [[c]]
  | c :: d :: rest =>
    if c = '$' ∧ d = '$' then [] :: splitAtMarker rest
    else match splitAtMarker (d :: rest) with
      | [] => [[c]]
      | t :: ts => (c :: t) :: ts

/-- Counting occurrences from left to right without overlap: the first
`skip` characters belong to the occurrence just counted. -/
def countFrom (pat : List Char) : Nat → List Char → Nat
  | _, [] => 0
  | skip + 1, _ :: cs => countFrom pat skip cs
  | 0, c :: cs =>
    if pat ≠ [] ∧ pat.isPrefixOf (c :: cs) then 1 + countFrom pat (pat.length - 1) cs
    else countFrom pat 0 cs

/-- The number of non-overlapping occurrences of `pat` in `s`. -/
def countOcc (pat s : List Char) : Nat := countFrom pat 0 s

/-- The line with every occurrence of `$$` replaced, in one pass from left
to right. -/
def expand (pid : List Char) : List Char → List Char
  | [] => []
  | [c] => [c]
  | c :: d :: rest =>
    if c = '$' ∧ d = '$' then pid ++ expand pid rest
    else c :: expand pid (d :: rest)

/-- The text is the decimal text of a process id: digits, at least one. -/
@[reducible] def IsPidText (pid : List Char) : Prop :=
  pid ≠ [] ∧ ∀ c ∈ pid, c.isDigit = true

/-- A text that holds no occurrence of `$$` and begins none with what
follows it. -/
def Clean (d : List Char) : Prop :=
  ∀ b, strstr (d ++ b) marker = (strstr b marker).map (fun i => i + d.length)

/-! ## Observers used to state the properties -/

/-- Slot `i` of the table is occupied and its non-blocking check reports a
terminated child. -/
def reported (poll : Poll) (tbl : List Int) (i : Nat) : Bool :=
  decide (tbl.getD i 0 > 0) && decide ((poll i (tbl.getD i 0)).1 > 0)

/-- The pids of the `background pid <pid> is done: ` lines of a trace, in
the order they were printed. -/
def donePids : List Event → List Int
  | [] => []
  | Event.stdout (Msg.backgroundPidDone pid) :: es => pid :: donePids es
  | _ :: es => donePids es

/-- The contract of `waitpid(pid, _, WNOHANG)`: a positive return value is
the pid that was asked about. -/
def Poll.Posix (poll : Poll) : Prop :=
  ∀ i pid, 0 < (poll i pid).1 → (poll i pid).1 = pid

/-- Occupied slots hold pairwise different pids, as the pids of children that
have not been reaped yet do. -/
def DistinctJobs (tbl : List Int) : Prop :=
  ∀ i, i < MAX_BG_PROCESSES → ∀ j, j < MAX_BG_PROCESSES →
    0 < tbl.getD i 0 → tbl.getD i 0 = tbl.getD j 0 → i = j

/-! ## Sample inputs -/

/-- A sample state: two background jobs, pids 11 and 12. -/
def twoJobs : Shell :=
  { Shell.init with bgProcesses := 11 :: 12 :: List.replicate 98 0 }

/-- A sample round of checks: the child 11 has exited with code 0, every
other child is still running. -/
def only11Done : Poll := fun _ pid => if pid = 11 then (11, 0) else (0, 0)

/-! ## Theorems -/

/-! ### Status register -/

theorem glibcWait_posix : glibcWait.Posix := by
  intro s
  constructor
  · exact Int.emod_nonneg _ (by decide)
  · exact Int.emod_nonneg _ (by decide)

/-- C8: initially and after `setStatus` exactly one of `exitStatus` and
`sigNum` is non-negative while the other is `-5`, and `printStatus` then
prints `exit value N` for a normal exit with code `N`, `terminated by signal
N` for a termination by signal `N`, and `exit value 0` in the initial state. -/
theorem status_register_exclusive (W : WaitMacros) (hW : W.Posix) (st : Shell) (s : Int) :
    (0 ≤ Shell.init.exitStatus ∧ Shell.init.sigNum = -5
      ∧ (printStatus Shell.init).trace = [Event.stdout (Msg.exitValue 0)])
    ∧ ((0 ≤ (setStatus W st s).exitStatus ∧ (setStatus W st s).sigNum = -5)
        ∨ (0 ≤ (setStatus W st s).sigNum ∧ (setStatus W st s).exitStatus = -5))
    ∧ ¬ (0 ≤ (setStatus W st s).exitStatus ∧ 0 ≤ (setStatus W st s).sigNum)
    ∧ (∀ N, W.WIFEXITED s = true → W.WEXITSTATUS s = N →
        (printStatus (setStatus W st s)).trace = st.trace ++ [Event.stdout (Msg.exitValue N)])
    ∧ (∀ N, W.WIFEXITED s = false → W.WTERMSIG s = N →
        (printStatus (setStatus W st s)).trace
          = st.trace ++ [Event.stdout (Msg.terminatedBySignal N)]) := by
  obtain ⟨he, hs⟩ := hW s
  refine ⟨⟨by decide, by decide, by decide⟩, ?_, ?_, ?_, ?_⟩
  · cases h : W.WIFEXITED s <;> simp [setStatus, h, he, hs]
  · cases h : W.WIFEXITED s <;> simp [setStatus, h]
  · intro N h hN
    subst hN
    simp [setStatus, h, printStatus, printStatusMsgs, he]
  · intro N h hN
    subst hN
    simp [setStatus, h, printStatus, printStatusMsgs, hs]

theorem status_register_exclusive_witness :
    glibcWait.Posix
    ∧ (printStatus (setStatus glibcWait Shell.init 256)).trace = [Event.stdout (Msg.exitValue 1)]
    ∧ (printStatus (setStatus glibcWait Shell.init 15)).trace
        = [Event.stdout (Msg.terminatedBySignal 15)] :=
  ⟨glibcWait_posix,
   (status_register_exclusive glibcWait glibcWait_posix Shell.init 256).2.2.2.1 1
     (by decide) (by decide),
   (status_register_exclusive glibcWait glibcWait_posix Shell.init 15).2.2.2.2 15
     (by decide) (by decide)⟩

/-! ### Job table: registration -/

theorem addBgLoop_full (pid : Int) (tbl : List Int) :
    ∀ n i, (∀ j, i ≤ j → j < i + n → tbl.getD j 0 ≠ 0) → addBgLoop pid n i tbl = tbl := by
  intro n
  induction n with
  | zero => intro i _; rfl
  | succ n ih =>
    intro i h
    have hi : tbl.getD i 0 ≠ 0 := h i (le_refl i) (by omega)
    rw [addBgLoop, if_neg hi]
    exact ih (i + 1) (fun j h1 h2 => h j (by omega) (by omega))

theorem addBgLoop_first (pid : Int) (tbl : List Int) (k : Nat) (hk : tbl.getD k 0 = 0) :
    ∀ n i, i ≤ k → k < i + n → (∀ j, i ≤ j → j < k → tbl.getD j 0 ≠ 0) →
      addBgLoop pid n i tbl = tbl.set k pid := by
  intro n
  induction n with
  | zero => intro i h1 h2; omega
  | succ n ih =>
    intro i h1 h2 h
    rw [addBgLoop]
    by_cases hik : i = k
    · subst hik
      rw [if_pos hk]
    · have hi : tbl.getD i 0 ≠ 0 := h i (le_refl i) (by omega)
      rw [if_neg hi]
      exact ih (i + 1) (by omega) (by omega) (fun j h3 h4 => h j (by omega) h4)

/-- C9: on a table of 100 slots `addBgProcess` writes the pid into the
lowest-index slot holding 0 and changes no other slot; when no slot holds 0
the table comes back unchanged (the function has no failure result). -/
theorem addBgProcess_first_free (tbl : List Int) (pid : Int)
    (hlen : tbl.length = MAX_BG_PROCESSES) (_hpid : 0 < pid) :
    (∀ k, k < MAX_BG_PROCESSES → tbl.getD k 0 = 0 → (∀ j, j < k → tbl.getD j 0 ≠ 0) →
        addBgProcess tbl pid = tbl.set k pid
        ∧ (addBgProcess tbl pid).getD k 0 = pid
        ∧ ∀ j, j ≠ k → (addBgProcess tbl pid).getD j 0 = tbl.getD j 0)
    ∧ ((∀ k, k < MAX_BG_PROCESSES → tbl.getD k 0 ≠ 0) → addBgProcess tbl pid = tbl) := by
  constructor
  · intro k hk h0 hfirst
    have e : addBgProcess tbl pid = tbl.set k pid :=
      addBgLoop_first pid tbl k h0 MAX_BG_PROCESSES 0 (Nat.zero_le k) (by omega)
        (fun j _ h => hfirst j h)
    refine ⟨e, ?_, ?_⟩
    · rw [e]
      simp [List.getD_eq_getElem?_getD, List.getElem?_set, hlen, hk]
    · intro j hj
      rw [e]
      simp [List.getD_eq_getElem?_getD, List.getElem?_set, Ne.symm hj]
  · intro h
    exact addBgLoop_full pid tbl MAX_BG_PROCESSES 0 (fun j _ hj => h j (by omega))

theorem addBgProcess_first_free_witness :
    addBgProcess (7 :: 9 :: List.replicate 98 0) 42 = 7 :: 9 :: 42 :: List.replicate 97 0
    ∧ addBgProcess (List.replicate 100 5) 42 = List.replicate 100 5 :=
  ⟨((addBgProcess_first_free (7 :: 9 :: List.replicate 98 0) 42 (by decide) (by decide)).1 2
      (by decide) (by decide) (by decide)).1,
   (addBgProcess_first_free (List.replicate 100 5) 42 (by decide) (by decide)).2 (by decide)⟩

/-! ### Job table: the non-blocking sweep -/

theorem donePids_append (a b : List Event) : donePids (a ++ b) = donePids a ++ donePids b := by
  induction a with
  | nil => rfl
  | cons e es ih =>
    cases e with
    | stdout m => cases m <;> simp [donePids, ih]
    | stderr m => simp [donePids, ih]
    | waitpid p n => simp [donePids, ih]
    | kill p => simp [donePids, ih]
    | chdir p => simp [donePids, ih]

/-- What one iteration of the sweep does to the table, the globals and the
trace. -/
theorem waitBgBody_spec (W : WaitMacros) (poll : Poll) (i : Nat) (st : Shell) :
    (waitBgBody W poll i st).bgProcesses
        = (if reported poll st.bgProcesses i then st.bgProcesses.set i 0 else st.bgProcesses)
    ∧ (waitBgBody W poll i st).exitStatus = st.exitStatus
    ∧ (waitBgBody W poll i st).sigNum = st.sigNum
    ∧ (waitBgBody W poll i st).fgMode = st.fgMode
    ∧ ∃ new, (waitBgBody W poll i st).trace = st.trace ++ new
        ∧ donePids new = (if reported poll st.bgProcesses i
            then [(poll i (st.bgProcesses.getD i 0)).1] else [])
        ∧ (∀ p, Event.stdout (Msg.backgroundPidIs p) ∉ new)
        ∧ (st.bgProcesses.getD i 0 ≤ 0 → new = []) := by
  unfold waitBgBody reported
  dsimp only
  generalize st.bgProcesses.getD i 0 = pid
  generalize hr : poll i pid = r
  by_cases h1 : pid > 0
  · by_cases h2 : r.1 > 0
    · cases h3 : W.WIFEXITED r.2
      · refine ⟨?_, ?_, ?_, ?_, [Event.waitpid pid true,
          Event.stdout (Msg.backgroundPidDone r.1),
          Event.stdout (Msg.terminatedBySignal (W.WTERMSIG r.2))], ?_, ?_, ?_, ?_⟩ <;>
          simp [h1, h2, h3, Shell.emit, donePids]
      · refine ⟨?_, ?_, ?_, ?_, [Event.waitpid pid true,
          Event.stdout (Msg.backgroundPidDone r.1),
          Event.stdout (Msg.exitValue (W.WEXITSTATUS r.2))], ?_, ?_, ?_, ?_⟩ <;>
          simp [h1, h2, h3, Shell.emit, donePids]
    · refine ⟨?_, ?_, ?_, ?_, [Event.waitpid pid true], ?_, ?_, ?_, ?_⟩ <;>
        simp [h1, h2, Shell.emit, donePids]
  · refine ⟨?_, ?_, ?_, ?_, [], ?_, ?_, ?_, ?_⟩ <;>
      simp [h1, donePids]

theorem getD_set_zero (tbl : List Int) (i j : Nat) :
    (tbl.set i 0).getD j 0 = if i = j then 0 else tbl.getD j 0 := by
  simp only [List.getD_eq_getElem?_getD, List.getElem?_set]
  by_cases h : i = j
  · subst h
    by_cases h2 : i < tbl.length <;> simp [h2]
  · simp [h]

theorem waitBgBody_getD (W : WaitMacros) (poll : Poll) (i j : Nat) (st : Shell) :
    (waitBgBody W poll i st).bgProcesses.getD j 0
      = if i = j ∧ reported poll st.bgProcesses j then 0 else st.bgProcesses.getD j 0 := by
  rw [(waitBgBody_spec W poll i st).1]
  by_cases hr : reported poll st.bgProcesses i = true
  · rw [if_pos hr, getD_set_zero]
    by_cases h : i = j
    · subst h
      simp [hr]
    · simp [h]
  · rw [if_neg hr]
    by_cases h : i = j
    · subst h
      simp [hr]
    · simp [h]

theorem reported_congr (poll : Poll) (t1 t2 : List Int) (j : Nat)
    (h : t1.getD j 0 = t2.getD j 0) : reported poll t1 j = reported poll t2 j := by
  unfold reported
  rw [h]

/-- What the sweep loop over the slots `i .. i+n-1` does. -/
theorem waitBgLoop_spec (W : WaitMacros) (poll : Poll) :
    ∀ n i st,
      (∀ j, (waitBgLoop W poll n i st).bgProcesses.getD j 0
          = if (i ≤ j ∧ j < i + n) ∧ reported poll st.bgProcesses j then 0
            else st.bgProcesses.getD j 0)
      ∧ (waitBgLoop W poll n i st).bgProcesses.length = st.bgProcesses.length
      ∧ (waitBgLoop W poll n i st).exitStatus = st.exitStatus
      ∧ (waitBgLoop W poll n i st).sigNum = st.sigNum
      ∧ (waitBgLoop W poll n i st).fgMode = st.fgMode
      ∧ ∃ new, (waitBgLoop W poll n i st).trace = st.trace ++ new
          ∧ donePids new = ((List.range' i n).filter (reported poll st.bgProcesses)).map
              (fun j => (poll j (st.bgProcesses.getD j 0)).1)
          ∧ (∀ p, Event.stdout (Msg.backgroundPidIs p) ∉ new) := by
  intro n
  induction n with
  | zero =>
    intro i st
    refine ⟨fun j => ?_, rfl, rfl, rfl, rfl, [], by simp [waitBgLoop], rfl, by simp⟩
    have : ¬ ((i ≤ j ∧ j < i + 0) ∧ reported poll st.bgProcesses j = true) := by omega
    rw [if_neg this]
    rfl
  | succ n ih =>
    intro i st
    obtain ⟨hb, he, hs, hf, newB, htB, hdB, hnB, -⟩ := waitBgBody_spec W poll i st
    obtain ⟨ht, hl, he2, hs2, hf2, newL, htL, hdL, hnL⟩ := ih (i + 1) (waitBgBody W poll i st)
    have hget := fun j => waitBgBody_getD W poll i j st
    rw [waitBgLoop]
    refine ⟨fun j => ?_, ?_, by rw [he2, he], by rw [hs2, hs], by rw [hf2, hf],
      newB ++ newL, by rw [htL, htB, List.append_assoc], ?_, ?_⟩
    · rw [ht j, hget j]
      by_cases hij : i = j
      · subst hij
        have : ¬ (i + 1 ≤ i ∧ i < i + 1 + n) := by omega
        by_cases hr : reported poll st.bgProcesses i = true <;> simp [hr, this]
      · have hrc : reported poll (waitBgBody W poll i st).bgProcesses j
            = reported poll st.bgProcesses j :=
          reported_congr poll _ _ j (by rw [hget j]; simp [hij])
        rw [hrc]
        have : (i + 1 ≤ j ∧ j < i + 1 + n) ↔ (i ≤ j ∧ j < i + (n + 1)) := by omega
        simp [hij, this]
    · rw [hl, hb]
      split <;> simp
    · rw [donePids_append, hdB, hdL, List.range'_succ, List.filter_cons]
      have hfil : (List.range' (i + 1) n).filter (reported poll (waitBgBody W poll i st).bgProcesses)
          = (List.range' (i + 1) n).filter (reported poll st.bgProcesses) := by
        apply List.filter_congr
        intro j hj
        have hj1 : i + 1 ≤ j := by
          rw [List.mem_range'] at hj
          obtain ⟨k, _, hk⟩ := hj
          omega
        exact reported_congr poll _ _ j (by rw [hget j]; simp; intro h; omega)
      rw [hfil]
      have hmap : ((List.range' (i + 1) n).filter (reported poll st.bgProcesses)).map
            (fun j => (poll j ((waitBgBody W poll i st).bgProcesses.getD j 0)).1)
          = ((List.range' (i + 1) n).filter (reported poll st.bgProcesses)).map
            (fun j => (poll j (st.bgProcesses.getD j 0)).1) := by
        apply List.map_congr_left
        intro j hj
        have hj1 : i + 1 ≤ j := by
          have hj2 := (List.mem_filter.mp hj).1
          rw [List.mem_range'] at hj2
          obtain ⟨k, _, hk⟩ := hj2
          omega
        have : (waitBgBody W poll i st).bgProcesses.getD j 0 = st.bgProcesses.getD j 0 := by
          rw [hget j]; simp; intro h; omega
        rw [this]
      rw [hmap]
      by_cases hr : reported poll st.bgProcesses i = true <;> simp [hr]
    · intro p hp
      rcases List.mem_append.mp hp with h | h
      · exact hnB p h
      · exact hnL p h

theorem waitBgLoop_idle (W : WaitMacros) (poll : Poll) :
    ∀ n i st, (∀ j, i ≤ j → j < i + n → st.bgProcesses.getD j 0 ≤ 0) →
      waitBgLoop W poll n i st = st := by
  intro n
  induction n with
  | zero => intro i st _; rfl
  | succ n ih =>
    intro i st h
    have h0 : ¬ st.bgProcesses.getD i 0 > 0 := by
      have := h i (le_refl i) (by omega)
      omega
    have hb : waitBgBody W poll i st = st := by
      unfold waitBgBody
      simp only [h0, if_false]
    rw [waitBgLoop, hb]
    exact ih (i + 1) st (fun j h1 h2 => h j (by omega) (by omega))

theorem mem_getD_of_pos (tbl : List Int) (x : Int) (hx : x ∈ tbl) :
    ∃ j, j < tbl.length ∧ tbl.getD j 0 = x := by
  obtain ⟨j, hj, e⟩ := List.mem_iff_getElem.mp hx
  refine ⟨j, hj, ?_⟩
  rw [List.getD_eq_getElem?_getD, List.getElem?_eq_getElem hj]
  exact e

/-- C10: one sweep of `waitBg` sets to 0 exactly the occupied slots whose
non-blocking check reports termination, prints one `background pid <pid> is
done: ` line for each of them and leaves the other slots alone; on a table
without occupied slots it changes and prints nothing; a slot reported by one
sweep is reported by no later sweep, and, the occupied slots holding
different pids, the reported pid is gone from the table and from the lines of
a later sweep. -/
theorem waitBg_sweep (W : WaitMacros) (poll : Poll) (st : Shell) :
    (∀ i, (waitBg W poll st).bgProcesses.getD i 0
        = if i < MAX_BG_PROCESSES ∧ reported poll st.bgProcesses i then 0
          else st.bgProcesses.getD i 0)
    ∧ (waitBg W poll st).bgProcesses.length = st.bgProcesses.length
    ∧ (∃ new, (waitBg W poll st).trace = st.trace ++ new
        ∧ donePids new = ((List.range MAX_BG_PROCESSES).filter (reported poll st.bgProcesses)).map
            (fun i => (poll i (st.bgProcesses.getD i 0)).1)
        ∧ (poll.Posix → donePids new
            = ((List.range MAX_BG_PROCESSES).filter (reported poll st.bgProcesses)).map
                (fun i => st.bgProcesses.getD i 0)))
    ∧ ((∀ i, i < MAX_BG_PROCESSES → st.bgProcesses.getD i 0 = 0) → waitBg W poll st = st)
    ∧ (∀ i, i < MAX_BG_PROCESSES → reported poll st.bgProcesses i = true →
        ∀ poll2, reported poll2 (waitBg W poll st).bgProcesses i = false)
    ∧ (st.bgProcesses.length = MAX_BG_PROCESSES → DistinctJobs st.bgProcesses →
        ∀ i, i < MAX_BG_PROCESSES → reported poll st.bgProcesses i = true →
          st.bgProcesses.getD i 0 ∉ (waitBg W poll st).bgProcesses
          ∧ ∀ (W2 : WaitMacros) (poll2 : Poll) (new2 : List Event), poll2.Posix →
              (waitBg W2 poll2 (waitBg W poll st)).trace = (waitBg W poll st).trace ++ new2 →
              st.bgProcesses.getD i 0 ∉ donePids new2) := by
  obtain ⟨ht, hl, -, -, -, new, htr, hd, -⟩ := waitBgLoop_spec W poll MAX_BG_PROCESSES 0 st
  have htab : ∀ i, (waitBg W poll st).bgProcesses.getD i 0
      = if i < MAX_BG_PROCESSES ∧ reported poll st.bgProcesses i then 0
        else st.bgProcesses.getD i 0 := by
    intro i
    have := ht i
    simp only [Nat.zero_le, true_and, Nat.zero_add] at this
    exact this
  have hgone : st.bgProcesses.length = MAX_BG_PROCESSES → DistinctJobs st.bgProcesses →
      ∀ i, i < MAX_BG_PROCESSES → reported poll st.bgProcesses i = true →
      ∀ j, (waitBg W poll st).bgProcesses.getD j 0 ≠ st.bgProcesses.getD i 0 := by
    intro hlen hdist i hi hrep j hj
    have hpos : 0 < st.bgProcesses.getD i 0 := by
      unfold reported at hrep
      simp only [Bool.and_eq_true, decide_eq_true_eq] at hrep
      exact hrep.1
    rw [htab j] at hj
    by_cases hc : j < MAX_BG_PROCESSES ∧ reported poll st.bgProcesses j = true
    · rw [if_pos hc] at hj
      omega
    · rw [if_neg hc] at hj
      have hjlt : j < MAX_BG_PROCESSES := by
        by_contra hge
        have : st.bgProcesses.getD j 0 = 0 := by
          rw [List.getD_eq_getElem?_getD, List.getElem?_eq_none (by omega)]
          rfl
        omega
      have hij := hdist i hi j hjlt hpos hj.symm
      subst hij
      exact hc ⟨hi, hrep⟩
  refine ⟨htab, hl, ⟨new, htr, ?_, ?_⟩, ?_, ?_, ?_⟩
  · rw [hd, List.range_eq_range']
  · intro hp
    rw [hd, List.range_eq_range']
    apply List.map_congr_left
    intro i hi
    have hrep := (List.mem_filter.mp hi).2
    unfold reported at hrep
    simp only [Bool.and_eq_true, decide_eq_true_eq] at hrep
    exact hp i _ hrep.2
  · intro h
    exact waitBgLoop_idle W poll MAX_BG_PROCESSES 0 st
      (fun j _ hj => le_of_eq (h j (by omega)))
  · intro i hi hrep poll2
    unfold reported
    rw [htab i, if_pos ⟨hi, hrep⟩]
    simp
  · intro hlen hdist i hi hrep
    have hne := hgone hlen hdist i hi hrep
    constructor
    · intro hmem
      obtain ⟨j, -, e⟩ := mem_getD_of_pos _ _ hmem
      exact hne j e
    · intro W2 poll2 new2 hp2 htr2 hmem
      obtain ⟨-, -, -, -, -, new3, htr3, hd3, -⟩ :=
        waitBgLoop_spec W2 poll2 MAX_BG_PROCESSES 0 (waitBg W poll st)
      have hnew : new2 = new3 := List.append_cancel_left (htr2.symm.trans htr3)
      rw [hnew, hd3] at hmem
      obtain ⟨j, hjf, e⟩ := List.mem_map.mp hmem
      have hrep2 := (List.mem_filter.mp hjf).2
      unfold reported at hrep2
      simp only [Bool.and_eq_true, decide_eq_true_eq] at hrep2
      have := hp2 j _ hrep2.2
      exact hne j (this.symm.trans e)

theorem only11Done_posix : only11Done.Posix := by
  intro i pid h
  unfold only11Done at h ⊢
  by_cases hp : pid = 11
  · simp [hp]
  · simp [hp] at h

set_option maxRecDepth 100000 in
theorem twoJobs_distinct : DistinctJobs twoJobs.bgProcesses := by
  unfold DistinctJobs
  decide

theorem waitBg_sweep_witness :
    only11Done.Posix
    ∧ DistinctJobs twoJobs.bgProcesses
    ∧ waitBg glibcWait only11Done Shell.init = Shell.init
    ∧ reported only11Done (waitBg glibcWait only11Done twoJobs).bgProcesses 0 = false
    ∧ (11 : Int) ∉ (waitBg glibcWait only11Done twoJobs).bgProcesses :=
  ⟨only11Done_posix, twoJobs_distinct,
   (waitBg_sweep glibcWait only11Done Shell.init).2.2.2.1 (by decide),
   (waitBg_sweep glibcWait only11Done twoJobs).2.2.2.2.1 0 (by decide) (by decide) only11Done,
   ((waitBg_sweep glibcWait only11Done twoJobs).2.2.2.2.2 (by decide) twoJobs_distinct 0
      (by decide) (by decide)).1⟩

/-! ### Parser: the loop seen from the characters -/

theorem getD_at_length (pre : List Char) (c : Char) (rest : List Char) :
    (pre ++ c :: rest).getD pre.length NUL = c := by
  rw [List.getD_append_right _ _ _ _ (le_refl _)]
  simp

theorem set_at_length (pre : List Char) (c x : Char) (rest : List Char) :
    (pre ++ c :: rest).set pre.length x = pre ++ x :: rest := by
  rw [List.set_append_right _ _ (le_refl _)]
  simp

theorem getD_after_length (pre : List Char) (c : Char) (rest : List Char) :
    (pre ++ c :: rest).getD (pre.length + 1) NUL = rest.headD NUL := by
  rw [List.getD_append_right _ _ _ _ (by omega)]
  have : pre.length + 1 - pre.length = 1 := by omega
  rw [this]
  cases rest <;> simp

theorem parseBody_eq_scanStep (cmdLen : Nat) (pre : List Char) (c : Char) (rest : List Char)
    (cmd : cmdLine) (rs : Bool) :
    parseBody cmdLen pre.length { inputCmd := pre ++ c :: rest, currCmd := cmd, redirSeen := rs }
      = (scanStep cmdLen pre.length c (rest.headD NUL) cmd rs).map
          (fun r => { inputCmd := pre ++ blank c :: rest, currCmd := r.1, redirSeen := r.2 }) := by
  unfold parseBody scanStep blank
  simp only [getD_at_length, set_at_length, getD_after_length]
  by_cases h1 : c = ' '
  · simp only [h1, if_true]
    split
    · rfl
    · split
      · split <;> rfl
      · rfl
  · simp only [h1, if_false]
    split
    · rfl
    · split <;> rfl

theorem parseLoop_eq_scan (cmdLen : Nat) (after : List Char) :
    ∀ (todo pre : List Char) (cmd : cmdLine) (rs : Bool),
      parseLoop cmdLen todo.length pre.length
          { inputCmd := pre ++ (todo ++ after), currCmd := cmd, redirSeen := rs }
        = (scan cmdLen todo after pre.length cmd rs).map
            (fun r => { inputCmd := pre ++ (todo.map blank ++ after),
                        currCmd := r.1, redirSeen := r.2 }) := by
  intro todo
  induction todo with
  | nil => intro pre cmd rs; rfl
  | cons c cs ih =>
    intro pre cmd rs
    rw [List.length_cons, parseLoop, List.cons_append, parseBody_eq_scanStep, scan]
    cases h : scanStep cmdLen pre.length c ((cs ++ after).headD NUL) cmd rs with
    | none => rfl
    | some r =>
      have e1 : pre ++ blank c :: (cs ++ after) = (pre ++ [blank c]) ++ (cs ++ after) := by simp
      have e2 : pre.length + 1 = (pre ++ [blank c]).length := by simp
      simp only [Option.map_some']
      rw [e1, e2, ih (pre ++ [blank c]) r.1 r.2]
      simp

theorem scan_append (cmdLen : Nat) (b after : List Char) :
    ∀ (a : List Char) (i : Nat) (cmd : cmdLine) (rs : Bool),
      scan cmdLen (a ++ b) after i cmd rs
        = (scan cmdLen a (b ++ after) i cmd rs).bind
            (fun r => scan cmdLen b after (i + a.length) r.1 r.2) := by
  intro a
  induction a with
  | nil => intro i cmd rs; simp [scan]
  | cons c cs ih =>
    intro i cmd rs
    rw [List.cons_append, scan, scan, List.append_assoc]
    cases h : scanStep cmdLen i c ((cs ++ (b ++ after)).headD NUL) cmd rs with
    | none => rfl
    | some r =>
      simp only []
      rw [ih (i + 1) r.1 r.2]
      have : i + 1 + cs.length = i + (c :: cs).length := by simp; omega
      rw [this]

/-- The parser on a well-formed buffer, in terms of `scan`. -/
theorem parseCmd_eq_scan (line junk : List Char) (hnul : NUL ∉ line) :
    parseCmd (line ++ NUL :: junk)
      = (scan line.length line (NUL :: junk) 0 startCmd false).map
          (fun r => (r.1, line.map blank ++ NUL :: junk)) := by
  have hlen : strlen (line ++ NUL :: junk) = some line.length := by
    unfold strlen cstr
    rw [if_pos (by simp)]
    have : List.takeWhile (fun c => c != NUL) (line ++ NUL :: junk) = line := by
      rw [List.takeWhile_append_of_pos]
      · simp
      · intro a ha
        have : a ≠ NUL := fun h => hnul (h ▸ ha)
        simpa using this
    simp [this]
  unfold parseCmd
  rw [hlen]
  have := parseLoop_eq_scan line.length (NUL :: junk) line [] startCmd false
  simp only [List.length_nil, List.nil_append] at this
  simp only []
  change (match parseLoop line.length line.length 0
      { inputCmd := line ++ NUL :: junk, currCmd := startCmd, redirSeen := false } with
    | none => none
    | some s => some (s.currCmd, s.inputCmd)) = _
  rw [this]
  cases scan line.length line (NUL :: junk) 0 startCmd false <;> rfl

/-! ### Parser: what the loop does to each field -/

theorem scanStep_bgMode (cmdLen i : Nat) (c nxt : Char) (cmd : cmdLine) (rs : Bool)
    (r : cmdLine × Bool) (h : scanStep cmdLen i c nxt cmd rs = some r) :
    r.1.bgMode = (cmd.bgMode
      || (decide (c = ' ') && decide (i + 1 = cmdLen - 1) && decide (nxt = '&'))) := by
  unfold scanStep at h
  by_cases h1 : c = ' '
  · rw [if_pos h1] at h
    by_cases h2 : i + 1 = cmdLen - 1 ∧ nxt = '&'
    · rw [if_pos h2] at h
      cases h
      simp [h1, h2.1, h2.2]
    · rw [if_neg h2] at h
      have hf : (decide (c = ' ') && decide (i + 1 = cmdLen - 1) && decide (nxt = '&')) = false := by
        by_cases h3 : i + 1 = cmdLen - 1
        · have : nxt ≠ '&' := fun h4 => h2 ⟨h3, h4⟩
          simp [this]
        · simp [h3]
      rw [hf]
      split at h
      · split at h
        · cases h; simp
        · cases h
      · cases h; simp
  · rw [if_neg h1] at h
    have hf : (decide (c = ' ') && decide (i + 1 = cmdLen - 1) && decide (nxt = '&')) = false := by
      simp [h1]
    rw [hf]
    split at h
    · cases h; simp
    · split at h <;> (cases h; simp)

theorem scan_bgMode (cmdLen : Nat) (after : List Char) :
    ∀ (todo : List Char) (i : Nat) (cmd : cmdLine) (rs : Bool) (r : cmdLine × Bool),
      scan cmdLen todo after i cmd rs = some r →
      r.1.bgMode = (cmd.bgMode || fires cmdLen todo after i) := by
  intro todo
  induction todo with
  | nil =>
    intro i cmd rs r h
    simp only [scan, Option.some.injEq] at h
    subst h
    simp [fires]
  | cons c cs ih =>
    intro i cmd rs r h
    rw [scan] at h
    cases hs : scanStep cmdLen i c ((cs ++ after).headD NUL) cmd rs with
    | none => rw [hs] at h; cases h
    | some r1 =>
      rw [hs] at h
      simp only [] at h
      rw [ih (i + 1) r1.1 r1.2 r h, scanStep_bgMode cmdLen i c _ cmd rs r1 hs, fires,
        Bool.or_assoc]

/-- Without redirection operator and without a trailing `&` token every
space makes the loop store the offset that follows it. -/
theorem scan_args (cmdLen : Nat) (after : List Char)
    (hafter : after.headD NUL ≠ '<' ∧ after.headD NUL ≠ '>') :
    ∀ (todo : List Char) (i : Nat) (cmd : cmdLine),
      (∀ c ∈ todo, c ≠ '<' ∧ c ≠ '>') →
      fires cmdLen todo after i = false →
      cmd.argCount + (spaceOffsets todo i).length ≤ MAX_ARGS →
      scan cmdLen todo after i cmd false = some (pushArgs cmd (spaceOffsets todo i), false) := by
  intro todo
  induction todo with
  | nil => intro i cmd _ _ _; rfl
  | cons c cs ih =>
    intro i cmd hno hfire hcount
    have hc := hno c (by simp)
    have hcs : ∀ x ∈ cs, x ≠ '<' ∧ x ≠ '>' := fun x hx => hno x (by simp [hx])
    rw [fires, Bool.or_eq_false_iff] at hfire
    have hnxt : (cs ++ after).headD NUL ≠ '<' ∧ (cs ++ after).headD NUL ≠ '>' := by
      cases cs with
      | nil => simpa using hafter
      | cons d ds => simpa using hno d (by simp)
    rw [scan]
    by_cases h1 : c = ' '
    · have hstep : scanStep cmdLen i c ((cs ++ after).headD NUL) cmd false
          = some ({ cmd with args := cmd.args.set cmd.argCount (some (i + 1))
                             argCount := cmd.argCount + 1 }, false) := by
        unfold scanStep
        have hf := hfire.1
        simp only [h1, decide_True, Bool.true_and, Bool.and_eq_false_imp,
          decide_eq_true_eq, decide_eq_false_iff_not] at hf
        have h2 : ¬ (i + 1 = cmdLen - 1 ∧ (cs ++ after).headD NUL = '&') := fun h => hf h.1 h.2
        have h3 : cmd.argCount < MAX_ARGS := by
          simp only [spaceOffsets, h1, if_true, List.length_cons] at hcount
          omega
        rw [if_pos h1, if_neg h2, if_pos ⟨hnxt.1, hnxt.2, rfl⟩, if_pos h3]
      rw [hstep]
      simp only [spaceOffsets, h1, if_true, pushArgs]
      apply ih (i + 1) _ hcs hfire.2
      simp only [spaceOffsets, h1, if_true, List.length_cons] at hcount
      simp only []
      omega
    · have hstep : scanStep cmdLen i c ((cs ++ after).headD NUL) cmd false = some (cmd, false) := by
        unfold scanStep
        rw [if_neg h1, if_neg hc.1, if_neg hc.2]
      rw [hstep]
      simp only [spaceOffsets, h1, if_false]
      apply ih (i + 1) _ hcs hfire.2
      simp only [spaceOffsets, h1, if_false] at hcount
      exact hcount

theorem take_set_self (l : List (Option Nat)) (x : Option Nat) :
    ∀ n, (l.set n x).take n = l.take n := by
  induction l with
  | nil => intro n; simp
  | cons a as ih =>
    intro n
    cases n with
    | zero => simp
    | succ m => simp [ih m]

theorem take_succ_set (l : List (Option Nat)) (n : Nat) (x : Option Nat) (h : n < l.length) :
    (l.set n x).take (n + 1) = l.take n ++ [x] := by
  rw [List.take_succ, List.getElem?_set_self h, take_set_self]
  rfl

/-- The fields of a command after `pushArgs`. -/
theorem pushArgs_spec :
    ∀ (offs : List Nat) (cmd : cmdLine), cmd.argCount + offs.length ≤ cmd.args.length →
      (pushArgs cmd offs).args.take (pushArgs cmd offs).argCount
          = cmd.args.take cmd.argCount ++ offs.map some
      ∧ (pushArgs cmd offs).argCount = cmd.argCount + offs.length
      ∧ (pushArgs cmd offs).args.length = cmd.args.length
      ∧ (pushArgs cmd offs).cmd = cmd.cmd
      ∧ (pushArgs cmd offs).inputFile = cmd.inputFile
      ∧ (pushArgs cmd offs).outputFile = cmd.outputFile
      ∧ (pushArgs cmd offs).bgMode = cmd.bgMode := by
  intro offs
  induction offs with
  | nil => intro cmd _; simp [pushArgs]
  | cons o os ih =>
    intro cmd h
    simp only [List.length_cons] at h
    have hlt : cmd.argCount < cmd.args.length := by omega
    obtain ⟨h1, h2, h3, h4, h5, h6, h7⟩ :=
      ih { cmd with args := cmd.args.set cmd.argCount (some o), argCount := cmd.argCount + 1 }
        (by simp only [List.length_set]; omega)
    simp only [pushArgs]
    refine ⟨?_, ?_, ?_, h4, h5, h6, h7⟩
    · rw [h1]
      simp only []
      rw [take_succ_set _ _ _ hlt]
      simp
    · rw [h2]
      simp only [List.length_cons]
      omega
    · rw [h3]
      simp

theorem pushArgs_head :
    ∀ (offs : List Nat) (cmd : cmdLine), 0 < cmd.argCount →
      (pushArgs cmd offs).args.head? = cmd.args.head? := by
  intro offs
  induction offs with
  | nil => intro cmd _; rfl
  | cons o os ih =>
    intro cmd h
    simp only [pushArgs]
    rw [ih _ (Nat.succ_pos _)]
    obtain ⟨m, hm⟩ := Nat.exists_eq_succ_of_ne_zero (Nat.pos_iff_ne_zero.mp h)
    simp only [hm]
    cases cmd.args <;> rfl

/-! ### Parser: the strings the pointers designate -/

theorem cstr_nul (pre rest : List Char) : cstr (pre ++ NUL :: rest) pre.length = [] := by
  unfold cstr
  simp

theorem cstr_cons (pre rest : List Char) (c : Char) (hc : c ≠ NUL) :
    cstr (pre ++ c :: rest) pre.length = c :: cstr (pre ++ c :: rest) (pre.length + 1) := by
  unfold cstr
  have e : pre ++ c :: rest = (pre ++ [c]) ++ rest := by simp
  have e2 : pre.length + 1 = (pre ++ [c]).length := by simp
  rw [List.drop_left]
  rw [e, e2, List.drop_left]
  simp [hc]

theorem cstr_token (pre t rest : List Char) (ht : NUL ∉ t) :
    cstr (pre ++ (t ++ NUL :: rest)) pre.length = t := by
  unfold cstr
  rw [List.drop_left, List.takeWhile_append_of_pos]
  · simp
  · intro a ha
    have : a ≠ NUL := fun h => ht (h ▸ ha)
    simpa using this

/-- The pointers stored at the spaces designate the space-separated fields. -/
theorem cstr_spaceOffsets :
    ∀ (todo pre rest : List Char), NUL ∉ todo →
      (pre.length :: spaceOffsets todo pre.length).map
          (cstr (pre ++ (todo.map blank ++ NUL :: rest)))
        = splitOnSpace todo := by
  intro todo
  induction todo with
  | nil =>
    intro pre rest _
    simp [spaceOffsets, splitOnSpace, cstr_nul]
  | cons c cs ih =>
    intro pre rest hnul
    have hc : c ≠ NUL := fun e => hnul (by simp [e])
    have hcs : NUL ∉ cs := fun e => hnul (by simp [e])
    by_cases h1 : c = ' '
    · have hb : blank c = NUL := by simp [blank, h1]
      have e : pre ++ (blank c :: List.map blank cs ++ NUL :: rest)
          = (pre ++ [NUL]) ++ (cs.map blank ++ NUL :: rest) := by simp [hb]
      have hih := ih (pre ++ [NUL]) rest hcs
      simp only [List.length_append, List.length_singleton] at hih
      simp only [spaceOffsets, h1, if_true, splitOnSpace, List.map_cons]
      have e0 : (pre ++ [NUL]) ++ (cs.map blank ++ NUL :: rest)
          = pre ++ NUL :: (cs.map blank ++ NUL :: rest) := by simp
      rw [← h1, e, ← hih, List.map_cons, e0, cstr_nul]
    · have hb : blank c = c := by simp [blank, h1]
      have e : pre ++ (blank c :: List.map blank cs ++ NUL :: rest)
          = (pre ++ [c]) ++ (cs.map blank ++ NUL :: rest) := by simp [hb]
      have hih := ih (pre ++ [c]) rest hcs
      simp only [List.length_append, List.length_singleton, List.map_cons] at hih
      simp only [spaceOffsets, h1, if_false, splitOnSpace, List.map_cons]
      rw [e, ← hih]
      simp only []
      have e0 : (pre ++ [c]) ++ (cs.map blank ++ NUL :: rest)
          = pre ++ c :: (cs.map blank ++ NUL :: rest) := by simp
      rw [e0, cstr_cons _ _ _ hc]

/-! ### Parser: lines without redirection -/

theorem fires_false_of_not_suffix (cmdLen : Nat) (after : List Char) :
    ∀ (todo : List Char) (i : Nat), i + todo.length = cmdLen → ¬ [' ', '&'] <:+ todo →
      fires cmdLen todo after i = false := by
  intro todo
  induction todo with
  | nil => intro i _ _; rfl
  | cons c cs ih =>
    intro i hlen hsuf
    rw [fires, Bool.or_eq_false_iff]
    constructor
    · by_contra hcon
      simp only [Bool.not_eq_false, Bool.and_eq_true, decide_eq_true_eq] at hcon
      obtain ⟨⟨hc, hi⟩, hn⟩ := hcon
      simp only [List.length_cons] at hlen
      have hcs : cs.length = 1 := by omega
      match cs, hcs with
      | [d], _ =>
        simp only [List.singleton_append, List.headD_cons] at hn
        apply hsuf
        rw [hc, hn]
    · apply ih (i + 1)
      · simp only [List.length_cons] at hlen
        omega
      · intro h
        exact hsuf (h.trans (List.suffix_cons c cs))

theorem fires_false_of_short (cmdLen : Nat) (after : List Char) :
    ∀ (todo : List Char) (i : Nat), i + todo.length < cmdLen - 1 →
      fires cmdLen todo after i = false := by
  intro todo
  induction todo with
  | nil => intro i _; rfl
  | cons c cs ih =>
    intro i hlen
    simp only [List.length_cons] at hlen
    rw [fires, Bool.or_eq_false_iff]
    constructor
    · have : ¬ (i + 1 = cmdLen - 1) := by omega
      simp [this]
    · exact ih (i + 1) (by omega)

theorem splitOnSpace_length (todo : List Char) :
    (splitOnSpace todo).length = (spaceOffsets todo 0).length + 1 := by
  have key : ∀ (l : List Char) (i j : Nat),
      (spaceOffsets l i).length = (spaceOffsets l j).length := by
    intro l
    induction l with
    | nil => intro i j; rfl
    | cons c cs ih =>
      intro i j
      by_cases h : c = ' '
      · simp [spaceOffsets, h, ih (i + 1) (j + 1)]
      · simp [spaceOffsets, h, ih (i + 1) (j + 1)]
  induction todo with
  | nil => rfl
  | cons c cs ih =>
    by_cases h : c = ' '
    · simp [splitOnSpace, spaceOffsets, h, ih, key cs 1 0]
    · simp only [splitOnSpace, spaceOffsets, h, if_false]
      rw [key cs (0 + 1) 0, ← ih]
      cases hs : splitOnSpace cs with
      | nil => rw [hs] at ih; simp at ih
      | cons t ts => rfl

theorem startCmd_take : startCmd.args.take startCmd.argCount = [some 0] := by
  rfl

theorem startCmd_length : startCmd.args.length = MAX_ARGS := by
  simp [startCmd, initCmd]

/-- The parser on a line without redirection operator and without trailing
`&` token. -/
theorem parseCmd_plain (line junk : List Char) (hnul : NUL ∉ line)
    (hlt : '<' ∉ line) (hgt : '>' ∉ line) (hamp : ¬ [' ', '&'] <:+ line)
    (hcount : (splitOnSpace line).length ≤ MAX_ARGS) :
    ∃ c, parseCmd (line ++ NUL :: junk) = some (c, line.map blank ++ NUL :: junk)
      ∧ argv (line.map blank ++ NUL :: junk) c = (splitOnSpace line).map some
      ∧ c.argCount = (splitOnSpace line).length
      ∧ c.cmd = some 0
      ∧ c.inputFile = none ∧ c.outputFile = none ∧ c.bgMode = false
      ∧ c.args.head? = some (some 0) := by
  have hfire : fires line.length line (NUL :: junk) 0 = false :=
    fires_false_of_not_suffix line.length (NUL :: junk) line 0 (by simp) hamp
  have hlen := splitOnSpace_length line
  have hscan := scan_args line.length (NUL :: junk)
    (by show NUL ≠ '<' ∧ NUL ≠ '>'; decide) line 0 startCmd
    (fun c hc => ⟨fun e => hlt (e ▸ hc), fun e => hgt (e ▸ hc)⟩) hfire
    (by change 1 + _ ≤ _; omega)
  obtain ⟨h1, h2, h3, h4, h5, h6, h7⟩ := pushArgs_spec (spaceOffsets line 0) startCmd
    (by rw [startCmd_length]; change 1 + _ ≤ _; omega)
  refine ⟨pushArgs startCmd (spaceOffsets line 0), ?_, ?_, ?_, h4, h5, h6, h7,
    pushArgs_head _ startCmd (by decide)⟩
  · rw [parseCmd_eq_scan line junk hnul, hscan]
    rfl
  · unfold argv
    rw [h1, startCmd_take]
    have hstr := cstr_spaceOffsets line [] junk hnul
    simp only [List.length_nil, List.nil_append] at hstr
    rw [← hstr]
    simp [strAt, List.map_map]
  · rw [h2, hlen]
    change 1 + _ = _
    omega

theorem splitOnSpace_ne_nil (l : List Char) : splitOnSpace l ≠ [] := by
  intro h
  have := splitOnSpace_length l
  rw [h] at this
  simp at this

theorem splitOnSpace_eq_splitOn (l : List Char) : splitOnSpace l = l.splitOn ' ' := by
  induction l with
  | nil => rfl
  | cons c cs ih =>
    unfold List.splitOn at ih ⊢
    rw [List.splitOnP_cons, splitOnSpace, ← ih]
    by_cases h : c = ' '
    · simp [h]
    · simp only [h, if_false, beq_iff_eq]
      cases hs : splitOnSpace cs with
      | nil => exact absurd hs (splitOnSpace_ne_nil cs)
      | cons t ts => rfl

/-- C2: for a non-empty line without `<`, `>` and without a trailing
standalone `&`, of at most 512 space-delimited tokens, `parseCmd` returns
the arguments `args[0..argCount-1]` equal to the line split at single
spaces (never empty, `args[0]` being `cmd`, the first token), no input
file, no output file and `bgMode = false`. -/
theorem parseCmd_no_redirection (line junk : List Char)
    (_hne : line ≠ []) (hnul : NUL ∉ line)
    (hlt : '<' ∉ line) (hgt : '>' ∉ line) (hamp : ¬ [' ', '&'] <:+ line)
    (hcount : (line.splitOn ' ').length ≤ MAX_ARGS) :
    ∃ c buf, parseCmd (line ++ NUL :: junk) = some (c, buf)
      ∧ argv buf c = (line.splitOn ' ').map some
      ∧ c.argCount = (line.splitOn ' ').length
      ∧ argv buf c ≠ []
      ∧ c.args.head? = some c.cmd
      ∧ some (strAt buf c.cmd) = ((line.splitOn ' ').map some).head?
      ∧ c.inputFile = none ∧ c.outputFile = none ∧ c.bgMode = false := by
  rw [← splitOnSpace_eq_splitOn] at hcount ⊢
  obtain ⟨c, hp, ha, hn, hc, hi, ho, hb, hargs0⟩ :=
    parseCmd_plain line junk hnul hlt hgt hamp hcount
  have hnil := splitOnSpace_ne_nil line
  refine ⟨c, _, hp, ha, hn, ?_, ?_, ?_, hi, ho, hb⟩
  · rw [ha]
    simpa using hnil
  · rw [hargs0, hc]
  · rw [hc]
    have e0 := cstr_spaceOffsets line [] junk hnul
    simp only [List.length_nil, List.nil_append] at e0
    rw [← e0]
    rfl

theorem parseCmd_no_redirection_witness :
    (parseCmd ("ls -la foo".toList ++ [NUL])).map
        (fun r => (argv r.2 r.1, r.1.inputFile, r.1.outputFile, r.1.bgMode))
      = some ([some "ls".toList, some "-la".toList, some "foo".toList], none, none, false) := by
  obtain ⟨c, buf, h1, h2, -, -, -, -, h3, h4, h5⟩ :=
    parseCmd_no_redirection "ls -la foo".toList [] (by decide) (by decide) (by decide)
      (by decide) (by decide) (by decide)
  rw [h1, Option.map_some', h2, h3, h4, h5]
  decide

/-! ### Parser: the background marker -/

theorem mem_take_succ_set (l : List (Option Nat)) (n : Nat) (x a : Option Nat)
    (h : a ∈ (l.set n x).take (n + 1)) : a ∈ l.take n ∨ a = x := by
  by_cases hn : n < l.length
  · rw [take_succ_set l n x hn] at h
    simpa using h
  · have hle : l.length ≤ n := by omega
    rw [List.set_eq_of_length_le hle, List.take_of_length_le (by omega)] at h
    left
    rw [List.take_of_length_le hle]
    exact h

theorem scanStep_total (cmdLen i : Nat) (c nxt : Char) (cmd : cmdLine) (rs : Bool)
    (hroom : c = ' ' → nxt ≠ '<' → nxt ≠ '>' → rs = false → cmd.argCount < MAX_ARGS) :
    ∃ r, scanStep cmdLen i c nxt cmd rs = some r
      ∧ r.1.cmd = cmd.cmd
      ∧ r.2 = (rs || decide (c = '<') || decide (c = '>'))
      ∧ ((r.1.args = cmd.args ∧ r.1.argCount = cmd.argCount)
        ∨ (c = ' ' ∧ rs = false ∧ nxt ≠ '<' ∧ nxt ≠ '>'
            ∧ r.1.args = cmd.args.set cmd.argCount (some (i + 1))
            ∧ r.1.argCount = cmd.argCount + 1)) := by
  unfold scanStep
  by_cases h1 : c = ' '
  · have e1 : decide (c = '<') = false := by rw [h1]; decide
    have e2 : decide (c = '>') = false := by rw [h1]; decide
    rw [if_pos h1, e1, e2, Bool.or_false, Bool.or_false]
    split
    · exact ⟨_, rfl, rfl, rfl, Or.inl ⟨rfl, rfl⟩⟩
    · split
      · rename_i h3
        rw [if_pos (hroom h1 h3.1 h3.2.1 h3.2.2)]
        exact ⟨_, rfl, rfl, rfl, Or.inr ⟨h1, h3.2.2, h3.1, h3.2.1, rfl, rfl⟩⟩
      · exact ⟨_, rfl, rfl, rfl, Or.inl ⟨rfl, rfl⟩⟩
  · rw [if_neg h1]
    by_cases h2 : c = '<'
    · rw [if_pos h2]
      exact ⟨_, rfl, rfl, by simp [h2], Or.inl ⟨rfl, rfl⟩⟩
    · rw [if_neg h2]
      by_cases h3 : c = '>'
      · rw [if_pos h3]
        exact ⟨_, rfl, rfl, by simp [h3], Or.inl ⟨rfl, rfl⟩⟩
      · rw [if_neg h3]
        exact ⟨_, rfl, rfl, by simp [h2, h3], Or.inl ⟨rfl, rfl⟩⟩

theorem head_not_op (cs after : List Char) (op : Char)
    (h : (cs ++ after).headD NUL ≠ op) : cs.head? ≠ some op := by
  cases cs with
  | nil => simp
  | cons d ds => simpa using h

/-- On any text that asks for no more arguments than `args` has room for
the loop runs to its end, and every argument pointer it adds points right
after one of the spaces. -/
theorem scan_total (cmdLen : Nat) (after : List Char) :
    ∀ (todo : List Char) (i : Nat) (cmd : cmdLine) (rs : Bool),
      cmd.argCount + (if rs = true then 0 else storingSpaces todo) ≤ MAX_ARGS →
      ∃ r, scan cmdLen todo after i cmd rs = some r
        ∧ r.1.cmd = cmd.cmd
        ∧ cmd.argCount ≤ r.1.argCount
        ∧ ∀ a ∈ r.1.args.take r.1.argCount,
            a ∈ cmd.args.take cmd.argCount ∨ ∃ k, a = some k ∧ i < k ∧ k ≤ i + todo.length := by
  intro todo
  induction todo with
  | nil =>
    intro i cmd rs _
    exact ⟨(cmd, rs), rfl, rfl, le_refl _, fun a ha => Or.inl ha⟩
  | cons c cs ih =>
    intro i cmd rs hroom
    have hroom1 : c = ' ' → (cs ++ after).headD NUL ≠ '<' → (cs ++ after).headD NUL ≠ '>' →
        rs = false → cmd.argCount < MAX_ARGS := by
      intro h h3 h4 h5
      have e1 := head_not_op cs after '<' h3
      have e2 := head_not_op cs after '>' h4
      have hnop : ¬ ((' ' : Char) = '<' ∨ (' ' : Char) = '>') := by decide
      simp only [h5, Bool.false_eq_true, if_false, storingSpaces, h, hnop, true_and] at hroom
      rw [if_pos ⟨e1, e2⟩] at hroom
      omega
    obtain ⟨r1, hr1, hc1, hrs1, hcase⟩ :=
      scanStep_total cmdLen i c ((cs ++ after).headD NUL) cmd rs hroom1
    have hroom2 : r1.1.argCount + (if r1.2 = true then 0 else storingSpaces cs) ≤ MAX_ARGS := by
      cases hrs : rs with
      | true =>
        have hr2 : r1.2 = true := by rw [hrs1, hrs]; rfl
        rw [hrs] at hroom
        rw [if_pos hr2]
        rcases hcase with ⟨-, hn⟩ | ⟨-, hf, -⟩
        · rw [hn]; simpa using hroom
        · rw [hrs] at hf; cases hf
      | false =>
        rw [hrs] at hroom
        simp only [Bool.false_eq_true, if_false] at hroom
        by_cases hop : c = '<' ∨ c = '>'
        · have hr2 : r1.2 = true := by
            rw [hrs1]
            rcases hop with e | e <;> simp [e]
          rw [if_pos hr2]
          rcases hcase with ⟨-, hn⟩ | ⟨hsp, -⟩
          · rw [hn]
            rw [storingSpaces, if_pos hop] at hroom
            simpa using hroom
          · exfalso
            rcases hop with e | e <;> (rw [hsp] at e; revert e; decide)
        · have hr2 : r1.2 = false := by
            rw [hrs1, hrs]
            have e1 : c ≠ '<' := fun e => hop (Or.inl e)
            have e2 : c ≠ '>' := fun e => hop (Or.inr e)
            simp [e1, e2]
          rw [hr2]
          simp only [Bool.false_eq_true, if_false]
          rw [storingSpaces, if_neg hop] at hroom
          rcases hcase with ⟨-, hn⟩ | ⟨hsp, -, h3, h4, -, hn⟩
          · rw [hn]
            omega
          · rw [hn]
            rw [if_pos ⟨hsp, head_not_op cs after '<' h3, head_not_op cs after '>' h4⟩] at hroom
            omega
    obtain ⟨r2, hr2, hc2, hn2, hmem⟩ := ih (i + 1) r1.1 r1.2 hroom2
    refine ⟨r2, ?_, by rw [hc2, hc1], ?_, ?_⟩
    · rw [scan, hr1]
      exact hr2
    · rcases hcase with ⟨-, hn⟩ | ⟨-, -, -, -, -, hn⟩ <;> omega
    · intro a ha
      rcases hmem a ha with h | ⟨k, hk, h1, h2⟩
      · rcases hcase with ⟨hargs, hn⟩ | ⟨-, -, -, -, hargs, hn⟩
        · left
          rw [← hargs, ← hn]
          exact h
        · rw [hargs, hn] at h
          rcases mem_take_succ_set _ _ _ _ h with h | h
          · exact Or.inl h
          · exact Or.inr ⟨i + 1, h, by omega, by simp only [List.length_cons]; omega⟩
      · exact Or.inr ⟨k, hk, by omega, by simp only [List.length_cons]; omega⟩

theorem storingSpaces_eq (l : List Char) (hl : ∀ c ∈ l, c ≠ '<' ∧ c ≠ '>') :
    ∀ i, (spaceOffsets l i).length = storingSpaces l := by
  induction l with
  | nil => intro i; rfl
  | cons c cs ih =>
    intro i
    have hc := hl c (by simp)
    have hcs : ∀ x ∈ cs, x ≠ '<' ∧ x ≠ '>' := fun x hx => hl x (by simp [hx])
    have hhead : cs.head? ≠ some '<' ∧ cs.head? ≠ some '>' := by
      cases cs with
      | nil => simp
      | cons d ds => simpa using hl d (by simp)
    rw [storingSpaces, if_neg (fun h => h.elim hc.1 hc.2)]
    by_cases h : c = ' '
    · rw [if_pos ⟨h, hhead⟩]
      simp only [spaceOffsets, h, if_true, List.length_cons, ih hcs (i + 1)]
      omega
    · rw [if_neg (fun hh => h hh.1)]
      simp only [spaceOffsets, h, if_false, ih hcs (i + 1)]
      omega

theorem scan_amp_tail (cmdLen : Nat) (junk : List Char) (i : Nat) (cmd : cmdLine) (rs : Bool)
    (hi : i + 1 = cmdLen - 1) :
    scan cmdLen [' ', '&'] (NUL :: junk) i cmd rs = some ({ cmd with bgMode := true }, rs) := by
  have h1 : scanStep cmdLen i ' ' '&' cmd rs = some ({ cmd with bgMode := true }, rs) := by
    unfold scanStep
    rw [if_pos rfl, if_pos ⟨hi, rfl⟩]
  have h2 : ∀ (cmd1 : cmdLine), scanStep cmdLen (i + 1) '&' NUL cmd1 rs = some (cmd1, rs) := by
    intro cmd1
    unfold scanStep
    rw [if_neg (by decide), if_neg (by decide), if_neg (by decide)]
  simp only [scan, List.cons_append, List.nil_append, List.headD_cons, h1, h2]

/-- The last token is the part of the line after its last space. -/
theorem lastToken_spec (line : List Char) :
    ∃ pre, line = pre ++ lastToken line ∧ ' ' ∉ lastToken line
      ∧ (pre = [] ∨ pre.getLast? = some ' ')
      ∧ (pre = [] ↔ (splitOnSpace line).length = 1) := by
  induction line with
  | nil => exact ⟨[], rfl, by simp [lastToken, splitOnSpace], Or.inl rfl, by simp [splitOnSpace]⟩
  | cons c cs ih =>
    obtain ⟨pre, hcs, hsp, hpre, hiff⟩ := ih
    cases hs : splitOnSpace cs with
    | nil => exact absurd hs (splitOnSpace_ne_nil cs)
    | cons t ts =>
      by_cases h : c = ' '
      · have hl : lastToken (c :: cs) = lastToken cs := by
          simp only [lastToken, splitOnSpace, h, if_true, hs, List.getLast?_cons_cons]
        refine ⟨c :: pre, ?_, by rw [hl]; exact hsp, Or.inr ?_, ?_⟩
        · rw [hl, List.cons_append, ← hcs]
        · rcases hpre with hp | hp
          · rw [hp, h]; rfl
          · cases pre with
            | nil => simp at hp
            | cons d ds => rw [List.getLast?_cons_cons]; exact hp
        · simp [splitOnSpace, h, hs]
      · cases ts with
        | nil =>
          have hp : pre = [] := hiff.mpr (by rw [hs]; rfl)
          have ht : lastToken cs = t := by simp [lastToken, hs]
          have hl : lastToken (c :: cs) = c :: t := by
            simp [lastToken, splitOnSpace, h, hs]
          refine ⟨[], ?_, ?_, Or.inl rfl, by simp [splitOnSpace, h, hs]⟩
          · rw [hl, List.nil_append]
            rw [hp, ht, List.nil_append] at hcs
            rw [← hcs]
          · rw [hl]
            rw [ht] at hsp
            intro hmem
            rcases List.mem_cons.mp hmem with e | e
            · exact h e.symm
            · exact hsp e
        | cons u us =>
          have hp : pre ≠ [] := by
            intro e
            have := hiff.mp e
            rw [hs] at this
            simp at this
          have hl : lastToken (c :: cs) = lastToken cs := by
            simp only [lastToken, splitOnSpace, h, if_false, hs, List.getLast?_cons_cons]
          refine ⟨c :: pre, ?_, by rw [hl]; exact hsp, Or.inr ?_, ?_⟩
          · rw [hl, List.cons_append, ← hcs]
          · rcases hpre with e | e
            · exact absurd e hp
            · cases pre with
              | nil => exact absurd rfl hp
              | cons d ds => rw [List.getLast?_cons_cons]; exact e
          · simp [splitOnSpace, h, hs]

theorem map_blank_of_no_space (t : List Char) (h : ' ' ∉ t) : t.map blank = t := by
  induction t with
  | nil => rfl
  | cons c cs ih =>
    have hc : c ≠ ' ' := fun e => h (by simp [e])
    have hcs : ' ' ∉ cs := fun e => h (by simp [e])
    simp [blank, hc, ih hcs]

theorem parseCmd_amp (rest junk : List Char) (hnul : NUL ∉ rest)
    (hcount : storingSpaces rest + 1 ≤ MAX_ARGS) :
    ∃ c, parseCmd ((rest ++ [' ', '&']) ++ NUL :: junk)
          = some (c, rest.map blank ++ NUL :: '&' :: NUL :: junk)
      ∧ c.bgMode = true
      ∧ some (rest.length + 1) ∉ c.args.take c.argCount
      ∧ ('<' ∉ rest → '>' ∉ rest →
          argv (rest.map blank ++ NUL :: '&' :: NUL :: junk) c = (splitOnSpace rest).map some) := by
  have hnul2 : NUL ∉ rest ++ [' ', '&'] := by
    intro h
    rcases List.mem_append.mp h with h | h
    · exact hnul h
    · revert h; decide
  obtain ⟨r1, hr1, -, -, hmem⟩ := scan_total (rest ++ [' ', '&']).length
    ([' ', '&'] ++ NUL :: junk) rest 0 startCmd false
    (by simp only [Bool.false_eq_true, if_false]; change 1 + _ ≤ _; omega)
  have htail := scan_amp_tail (rest ++ [' ', '&']).length junk (0 + rest.length) r1.1 r1.2
    (by simp)
  have hscan : scan (rest ++ [' ', '&']).length (rest ++ [' ', '&']) (NUL :: junk) 0 startCmd false
      = some ({ r1.1 with bgMode := true }, r1.2) := by
    rw [scan_append, hr1]
    exact htail
  have hbuf : (rest ++ [' ', '&']).map blank ++ NUL :: junk
      = rest.map blank ++ NUL :: '&' :: NUL :: junk := by
    simp [blank]
  refine ⟨{ r1.1 with bgMode := true }, ?_, rfl, ?_, ?_⟩
  · rw [parseCmd_eq_scan _ junk hnul2, hscan, hbuf]
    rfl
  · intro h
    rcases hmem _ h with h0 | ⟨k, hk, -, hk2⟩
    · rw [startCmd_take] at h0
      simp at h0
    · simp only [Option.some.injEq] at hk
      omega
  · intro hlt hgt
    have hlen := storingSpaces_eq rest
      (fun c hc => ⟨fun e => hlt (e ▸ hc), fun e => hgt (e ▸ hc)⟩) 0
    have hargs := scan_args (rest ++ [' ', '&']).length ([' ', '&'] ++ NUL :: junk)
      (by show (' ' : Char) ≠ '<' ∧ (' ' : Char) ≠ '>'; decide) rest 0 startCmd
      (fun c hc => ⟨fun e => hlt (e ▸ hc), fun e => hgt (e ▸ hc)⟩)
      (fires_false_of_short _ _ rest 0 (by simp))
      (by change 1 + _ ≤ _; omega)
    rw [hr1] at hargs
    have hr : r1.1 = pushArgs startCmd (spaceOffsets rest 0) := by
      cases hargs
      rfl
    obtain ⟨h1, -⟩ := pushArgs_spec (spaceOffsets rest 0) startCmd
      (by rw [startCmd_length]; change 1 + _ ≤ _; omega)
    unfold argv
    simp only [hr]
    rw [h1, startCmd_take]
    have hstr := cstr_spaceOffsets rest [] ('&' :: NUL :: junk) hnul
    simp only [List.length_nil, List.nil_append] at hstr
    rw [← hstr]
    simp [List.map_map]

theorem not_amp_suffix (line : List Char) (h : line.dropLast.getLast? ≠ some ' ') :
    ¬ [' ', '&'] <:+ line := by
  rintro ⟨t, rfl⟩
  apply h
  have : (t ++ [' ', '&']).dropLast = t ++ [' '] := by
    rw [List.dropLast_append_of_ne_nil _ (by simp)]
    rfl
  rw [this]
  simp

/-- C3, as the code has it: among the lines that ask for at most 512
arguments (the command, and one more for each space that comes before every
redirection operator and is not directly followed by one), a line made of a
non-empty `rest`, a single space and a final `&` is parsed with `bgMode =
true` and without an argument pointer to that `&` (the arguments are the
tokens of `rest` when it has no redirection); and a line whose last
character is `&` and whose last but one character is not a space is parsed
with `bgMode = false`, the `&` staying in its last token, which is the last
argument when the line has no redirection. -/
theorem parseCmd_background_marker (junk : List Char) :
    (∀ rest : List Char, rest ≠ [] → NUL ∉ rest → storingSpaces rest + 1 ≤ MAX_ARGS →
      ∃ c buf, parseCmd ((rest ++ [' ', '&']) ++ NUL :: junk) = some (c, buf)
        ∧ c.bgMode = true
        ∧ some (rest.length + 1) ∉ c.args.take c.argCount
        ∧ ('<' ∉ rest → '>' ∉ rest → argv buf c = (rest.splitOn ' ').map some))
    ∧ (∀ line : List Char, NUL ∉ line → line.getLast? = some '&' →
        line.dropLast.getLast? ≠ some ' ' → storingSpaces line + 1 ≤ MAX_ARGS →
      ∃ c buf, parseCmd (line ++ NUL :: junk) = some (c, buf)
        ∧ c.bgMode = false
        ∧ (lastToken line).getLast? = some '&'
        ∧ cstr buf (line.length - (lastToken line).length) = lastToken line
        ∧ ('<' ∉ line → '>' ∉ line → (argv buf c).getLast? = some (some (lastToken line)))) := by
  constructor
  · intro rest _ hnul hcount
    rw [← splitOnSpace_eq_splitOn]
    obtain ⟨c, h1, h2, h3, h4⟩ := parseCmd_amp rest junk hnul hcount
    exact ⟨c, _, h1, h2, h3, h4⟩
  · intro line hnul hlast hprev hcount
    have hamp := not_amp_suffix line hprev
    obtain ⟨r, hr, -, -, -⟩ := scan_total line.length (NUL :: junk) line 0 startCmd false
      (by simp only [Bool.false_eq_true, if_false]; change 1 + _ ≤ _; omega)
    have hbg := scan_bgMode line.length (NUL :: junk) line 0 startCmd false r hr
    rw [fires_false_of_not_suffix line.length (NUL :: junk) line 0 (by simp) hamp] at hbg
    obtain ⟨pre, hline, hsp, hpre, -⟩ := lastToken_spec line
    have htok : lastToken line ≠ [] := by
      intro e
      rw [e, List.append_nil] at hline
      rcases hpre with hp | hp
      · rw [hline, hp] at hlast
        simp at hlast
      · rw [hline, hp] at hlast
        revert hlast
        decide
    have hnultok : NUL ∉ lastToken line := by
      intro h
      apply hnul
      rw [hline]
      exact List.mem_append_right _ h
    refine ⟨r.1, line.map blank ++ NUL :: junk, ?_, ?_, ?_, ?_, ?_⟩
    · rw [parseCmd_eq_scan line junk hnul, hr]
      rfl
    · rw [hbg]
      rfl
    · rw [← hlast]
      conv_rhs => rw [hline]
      rw [List.getLast?_append_of_ne_nil _ htok]
    · have e1 : line.length - (lastToken line).length = (pre.map blank).length := by
        have hl := congrArg List.length hline
        rw [List.length_append] at hl
        rw [List.length_map]
        omega
      have e2 : line.map blank ++ NUL :: junk
          = pre.map blank ++ (lastToken line ++ NUL :: junk) := by
        conv_lhs => rw [hline]
        rw [List.map_append, map_blank_of_no_space _ hsp, List.append_assoc]
      rw [e1, e2, cstr_token _ _ _ hnultok]
    · intro hlt hgt
      have hcount2 : (splitOnSpace line).length ≤ MAX_ARGS := by
        rw [splitOnSpace_length, storingSpaces_eq line
          (fun c hc => ⟨fun e => hlt (e ▸ hc), fun e => hgt (e ▸ hc)⟩) 0]
        exact hcount
      obtain ⟨c, hp, ha, -⟩ := parseCmd_plain line junk hnul hlt hgt hamp hcount2
      have hc : r.1 = c := by
        rw [parseCmd_eq_scan line junk hnul, hr] at hp
        simp only [Option.map_some', Option.some.injEq, Prod.mk.injEq] at hp
        exact hp.1
      rw [hc, ha, List.getLast?_map]
      unfold lastToken
      cases hs : (splitOnSpace line).getLast? with
      | none =>
        rw [List.getLast?_eq_none_iff] at hs
        exact absurd hs (splitOnSpace_ne_nil line)
      | some t => rfl

theorem parseCmd_background_marker_witness :
    (parseCmd (("sleep 5".toList ++ [' ', '&']) ++ [NUL])).map
        (fun r => (argv r.2 r.1, r.1.bgMode))
      = some ([some "sleep".toList, some "5".toList], true)
    ∧ (parseCmd ("echo foo&".toList ++ [NUL])).map
        (fun r => ((argv r.2 r.1).getLast?, r.1.bgMode))
      = some (some (some "foo&".toList), false)
    ∧ (parseCmd (("cat > out x y".toList ++ [' ', '&']) ++ [NUL])).map (fun r => r.1.bgMode)
      = some true := by
  refine ⟨?_, ?_, ?_⟩
  · obtain ⟨c, buf, h1, h2, -, h3⟩ :=
      (parseCmd_background_marker []).1 "sleep 5".toList (by decide) (by decide) (by decide)
    rw [h1, Option.map_some', h2, h3 (by decide) (by decide)]
    decide
  · obtain ⟨c, buf, h1, h2, -, -, h3⟩ :=
      (parseCmd_background_marker []).2 "echo foo&".toList (by decide) (by decide) (by decide)
        (by decide)
    rw [h1, Option.map_some', h2, h3 (by decide) (by decide)]
    decide
  · obtain ⟨c, buf, h1, h2, -⟩ :=
      (parseCmd_background_marker []).1 "cat > out x y".toList (by decide) (by decide)
        (by decide)
    rw [h1, Option.map_some', h2]

/-! ### Parser: redirections -/

theorem joinTokens_append (a b : List (List Char)) :
    joinTokens (a ++ b) = joinTokens a ++ joinTokens b := by
  induction a with
  | nil => rfl
  | cons t ts ih => simp [joinTokens, ih]

theorem mem_joinTokens (x : Char) (ts : List (List Char)) (h : x ∈ joinTokens ts) :
    x = ' ' ∨ ∃ t ∈ ts, x ∈ t := by
  induction ts with
  | nil => simp [joinTokens] at h
  | cons t ts ih =>
    simp only [joinTokens, List.mem_cons, List.mem_append] at h
    rcases h with (h | h) | h
    · exact Or.inl h
    · exact Or.inr ⟨t, by simp, h⟩
    · rcases ih h with e | ⟨u, hu, hx⟩
      · exact Or.inl e
      · exact Or.inr ⟨u, by simp [hu], hx⟩

theorem splitOnSpace_token (w rest : List Char) (hw : ' ' ∉ w) :
    splitOnSpace (w ++ ' ' :: rest) = w :: splitOnSpace rest := by
  induction w with
  | nil => simp [splitOnSpace]
  | cons c cs ih =>
    have hc : c ≠ ' ' := fun e => hw (by simp [e])
    have hcs : ' ' ∉ cs := fun e => hw (by simp [e])
    rw [List.cons_append, splitOnSpace, if_neg hc, ih hcs]

theorem splitOnSpace_single (w : List Char) (hw : ' ' ∉ w) : splitOnSpace w = [w] := by
  induction w with
  | nil => rfl
  | cons c cs ih =>
    have hc : c ≠ ' ' := fun e => hw (by simp [e])
    have hcs : ' ' ∉ cs := fun e => hw (by simp [e])
    rw [splitOnSpace, if_neg hc, ih hcs]

theorem splitOnSpace_joinTokens (ts : List (List Char)) (hts : ∀ t ∈ ts, ' ' ∉ t) :
    ∀ w0, ' ' ∉ w0 → splitOnSpace (w0 ++ joinTokens ts) = w0 :: ts := by
  induction ts with
  | nil =>
    intro w0 h0
    simp [joinTokens, splitOnSpace_single w0 h0]
  | cons t ts ih =>
    intro w0 h0
    rw [joinTokens, List.cons_append, splitOnSpace_token w0 _ h0,
      ih (fun u hu => hts u (by simp [hu])) t (hts t (by simp))]

/-- When 512 arguments are stored and a further space asks for one more,
the parser writes `args[512]`, past the array. -/
theorem parseCmd_overflow (l1 y junk : List Char) (x : Char)
    (hnul : NUL ∉ l1 ++ ' ' :: x :: y)
    (hops : ∀ c ∈ l1, c ≠ '<' ∧ c ≠ '>') (hx : x ≠ '<' ∧ x ≠ '>') (hy : y ≠ [])
    (hfull : (spaceOffsets l1 0).length + 1 = MAX_ARGS) :
    parseCmd ((l1 ++ ' ' :: x :: y) ++ NUL :: junk) = none := by
  have hylen : 0 < y.length := List.length_pos.mpr hy
  have hscan1 := scan_args (l1 ++ ' ' :: x :: y).length ((' ' :: x :: y) ++ NUL :: junk)
    (by show (' ' : Char) ≠ '<' ∧ (' ' : Char) ≠ '>'; decide) l1 0 startCmd hops
    (fires_false_of_short _ _ l1 0
      (by simp only [List.length_append, List.length_cons]; omega))
    (by change 1 + _ ≤ _; omega)
  obtain ⟨-, hcnt, -⟩ := pushArgs_spec (spaceOffsets l1 0) startCmd
    (by rw [startCmd_length]; change 1 + _ ≤ _; omega)
  have hstep : scanStep (l1 ++ ' ' :: x :: y).length (0 + l1.length) ' '
      (((x :: y) ++ NUL :: junk).headD NUL) (pushArgs startCmd (spaceOffsets l1 0)) false
      = none := by
    unfold scanStep
    have hnofire : ¬ (0 + l1.length + 1 = (l1 ++ ' ' :: x :: y).length - 1
        ∧ ((x :: y) ++ NUL :: junk).headD NUL = '&') := by
      rintro ⟨h, -⟩
      simp only [List.length_append, List.length_cons] at h
      omega
    have hfullc : ¬ (pushArgs startCmd (spaceOffsets l1 0)).argCount < MAX_ARGS := by
      rw [hcnt]
      change ¬ 1 + _ < _
      omega
    rw [if_pos rfl, if_neg hnofire, if_pos ⟨hx.1, hx.2, rfl⟩, if_neg hfullc]
  rw [parseCmd_eq_scan _ junk hnul, scan_append, hscan1, Option.some_bind, scan, hstep]
  rfl

theorem manyTokens_succ (n : Nat) : manyTokens (n + 1) = manyTokens n ++ [' ', 'a'] := by
  unfold manyTokens
  rw [List.replicate_succ', joinTokens_append]
  rfl

theorem mem_manyTokens (n : Nat) (c : Char) (h : c ∈ manyTokens n) : c = 'a' ∨ c = ' ' := by
  unfold manyTokens at h
  rcases List.mem_cons.mp h with e | e
  · exact Or.inl e
  · rcases mem_joinTokens c _ e with e2 | ⟨t, ht, hc⟩
    · exact Or.inr e2
    · rw [List.eq_of_mem_replicate ht] at hc
      exact Or.inl (by simpa using hc)

theorem manyTokens_offsets (n : Nat) : (spaceOffsets (manyTokens n) 0).length = n := by
  have h1 := splitOnSpace_length (manyTokens n)
  have h2 : splitOnSpace (manyTokens n) = ['a'] :: List.replicate n ['a'] :=
    splitOnSpace_joinTokens (List.replicate n ['a'])
      (fun t ht => by rw [List.eq_of_mem_replicate ht]; decide) ['a'] (by decide)
  rw [h2] at h1
  simp only [List.length_cons, List.length_replicate] at h1
  omega

theorem manyTokens_length (n : Nat) : (manyTokens n).length = 2 * n + 1 := by
  induction n with
  | zero => rfl
  | succ n ih =>
    rw [manyTokens_succ, List.length_append, ih]
    simp only [List.length_cons, List.length_nil]
    omega

/-- The parser on 513 tokens `a` followed by the text `tail` (which begins
with a space, when it is not empty). -/
theorem parseCmd_manyTokens (tail : List Char) (hnul : NUL ∉ tail) :
    parseCmd ((manyTokens 511 ++ ' ' :: 'a' :: ' ' :: tail) ++ [NUL]) = none := by
  apply parseCmd_overflow (manyTokens 511) (' ' :: tail) [] 'a'
  · intro h
    rcases List.mem_append.mp h with h | h
    · rcases mem_manyTokens 511 NUL h with e | e <;> (revert e; decide)
    · simp only [List.mem_cons] at h
      rcases h with e | e | e | e
      · revert e; decide
      · revert e; decide
      · revert e; decide
      · exact hnul e
  · intro c hc
    rcases mem_manyTokens 511 c hc with e | e <;> (rw [e]; decide)
  · decide
  · simp
  · rw [manyTokens_offsets]
    rfl

/-- C3 as stated fails at the line made of 513 tokens `a`, a space and `&`
(1027 characters): storing the argument that follows the 512th space the
parser writes `args[512]`, past the array, and no command comes back. -/
theorem amp_line_overflow :
    manyTokens 512 ≠ []
    ∧ (manyTokens 512 ++ [' ', '&']).length = 1027
    ∧ storingSpaces (manyTokens 512) + 1 = 513
    ∧ parseCmd ((manyTokens 512 ++ [' ', '&']) ++ [NUL]) = none := by
  refine ⟨by unfold manyTokens; exact List.cons_ne_nil _ _, ?_, ?_, ?_⟩
  · rw [List.length_append, manyTokens_length]
    rfl
  · rw [← storingSpaces_eq (manyTokens 512)
      (fun c hc => by rcases mem_manyTokens 512 c hc with e | e <;> (rw [e]; decide)) 0,
      manyTokens_offsets]
  · have e : manyTokens 512 ++ [' ', '&'] = manyTokens 511 ++ ' ' :: 'a' :: ' ' :: ['&'] := by
      rw [manyTokens_succ, List.append_assoc]
      rfl
    rw [e]
    exact parseCmd_manyTokens ['&'] (by decide)

/-- The child branch is the same whatever the value of `fgMode`. -/
theorem childBranch_ignores_fgMode (env : ChildEnv) (st : Shell) (buf : List Char)
    (currCmd : cmdLine) (b : Bool) :
    childBranch env { st with fgMode := b } buf currCmd = childBranch env st buf currCmd := by
  rfl

set_option maxRecDepth 100000 in
/-- C6: evaluation at `sleep 5 &` entered in foreground-only mode.  The
command is parsed with `bgMode = true` and no input file, the parent blocks
in `waitpid` for the child (it runs in the foreground), and yet `redir` has
connected the child's standard input (and output) to `/dev/null`: the child
branch tests `bgMode` alone and never reads `fgMode`. -/
theorem fgOnly_child_stdin_devNull :
    fgOnlyShell.fgMode = true
    ∧ (parseCmd sleepLine).map (fun r => (r.1.bgMode, r.1.inputFile)) = some (true, none)
    ∧ (parseCmd sleepLine).map
          (fun r => dispatch glibcWait noneDone okEnv fgOnlyShell r.2 r.1 1234 0)
        = some (Next.prompt (fgOnlyShell.emit (Event.waitpid 1234 false)))
    ∧ (parseCmd sleepLine).map
          (fun r => ((childBranch okEnv fgOnlyShell r.2 r.1).stdin,
                     (childBranch okEnv fgOnlyShell r.2 r.1).stdout))
        = some (Target.devNull, Target.devNull) := by
  refine ⟨rfl, ?_, ?_, ?_⟩ <;> decide

set_option maxRecDepth 100000 in
/-- C7: evaluation at `sleep 5 &` entered in foreground-only mode.  The
parent blocks in `waitpid` for the child, which therefore runs in the
foreground, but the child has kept SIGINT ignored: the reset to `SIG_DFL` is
guarded by `!currCmd.bgMode` alone. -/
theorem fgOnly_child_sigint_ignored :
    fgOnlyShell.fgMode = true
    ∧ (parseCmd sleepLine).map
          (fun r => dispatch glibcWait noneDone okEnv fgOnlyShell r.2 r.1 1234 0)
        = some (Next.prompt (fgOnlyShell.emit (Event.waitpid 1234 false)))
    ∧ (parseCmd sleepLine).map (fun r => (childBranch okEnv fgOnlyShell r.2 r.1).sigint)
        = some Disposition.SIG_IGN
    ∧ (parseCmd ("sleep 5".toList ++ [NUL])).map
          (fun r => (childBranch okEnv fgOnlyShell r.2 r.1).sigint)
        = some Disposition.SIG_DFL := by
  refine ⟨rfl, ?_, ?_, ?_⟩ <;> decide

/-! ### Variable expansion: the first occurrence of the marker -/

theorem marker_prefix_cons (c : Char) (cs : List Char) :
    marker.isPrefixOf (c :: cs) = true ↔ c = '$' ∧ cs.head? = some '$' := by
  cases cs with
  | nil => simp [marker, List.isPrefixOf]
  | cons d rest =>
    simp only [marker, List.isPrefixOf, Bool.and_true, Bool.and_eq_true, beq_iff_eq,
      List.head?_cons, Option.some.injEq]
    constructor
    · rintro ⟨h1, h2⟩; exact ⟨h1.symm, h2.symm⟩
    · rintro ⟨h1, h2⟩; exact ⟨h1.symm, h2.symm⟩

theorem strstr_nil : strstr [] marker = none := by
  simp [strstr, marker]

theorem strstr_cons (c : Char) (cs : List Char) :
    strstr (c :: cs) marker
      = if c = '$' ∧ cs.head? = some '$' then some 0
        else (strstr cs marker).map (fun i => i + 1) := by
  rw [strstr]
  by_cases h : c = '$' ∧ cs.head? = some '$'
  · rw [if_pos ((marker_prefix_cons c cs).mpr h), if_pos h]
  · rw [if_neg (fun hp => h ((marker_prefix_cons c cs).mp hp)), if_neg h]

theorem Clean.nil : Clean [] := by
  intro b
  rw [List.nil_append]
  cases strstr b marker <;> rfl

theorem Clean.append {d e : List Char} (hd : Clean d) (he : Clean e) : Clean (d ++ e) := by
  intro b
  rw [List.append_assoc, hd (e ++ b), he b]
  cases strstr b marker with
  | none => rfl
  | some i =>
    simp only [Option.map_some', List.length_append, Option.some.injEq]
    omega

theorem Clean.single {c : Char} (hc : c ≠ '$') : Clean [c] := by
  intro b
  rw [List.singleton_append, strstr_cons, if_neg (fun h => hc h.1)]
  rfl

theorem Clean.of_no_dollar (t : List Char) (h : '$' ∉ t) : Clean t := by
  induction t with
  | nil => exact Clean.nil
  | cons c cs ih =>
    have hc : c ≠ '$' := fun e => h (by simp [e])
    have hcs : '$' ∉ cs := fun e => h (by simp [e])
    have := Clean.append (Clean.single hc) (ih hcs)
    simpa using this

theorem strstr_some_split :
    ∀ (b : List Char) (i : Nat), strstr b marker = some i →
      ∃ a b', b = a ++ '$' :: '$' :: b' ∧ a.length = i := by
  intro b
  induction b with
  | nil => intro i h; rw [strstr_nil] at h; cases h
  | cons c cs ih =>
    intro i h
    rw [strstr_cons] at h
    by_cases hp : c = '$' ∧ cs.head? = some '$'
    · rw [if_pos hp] at h
      cases h
      cases cs with
      | nil => simp at hp
      | cons d rest =>
        simp only [List.head?_cons, Option.some.injEq] at hp
        exact ⟨[], rest, by rw [hp.1, hp.2]; rfl, rfl⟩
    · rw [if_neg hp] at h
      cases hs : strstr cs marker with
      | none => rw [hs] at h; cases h
      | some j =>
        rw [hs] at h
        simp only [Option.map_some', Option.some.injEq] at h
        obtain ⟨a, b', e, hl⟩ := ih j hs
        exact ⟨c :: a, b', by rw [e]; rfl, by simp [hl, h]⟩

/-- What the first occurrence of the marker means for the one-pass
expansion, the count of occurrences and the pieces. -/
theorem first_occurrence (pid b' : List Char) :
    ∀ a : List Char, strstr (a ++ '$' :: '$' :: b') marker = some a.length →
      Clean a
      ∧ expand pid (a ++ '$' :: '$' :: b') = a ++ (pid ++ expand pid b')
      ∧ countOcc marker (a ++ '$' :: '$' :: b') = countOcc marker b' + 1 := by
  intro a
  induction a with
  | nil =>
    intro _
    refine ⟨Clean.nil, ?_, ?_⟩
    · simp [expand]
    · simp [countOcc, countFrom, marker, List.isPrefixOf]
      omega
  | cons c a ih =>
    intro h
    rw [List.cons_append, strstr_cons] at h
    by_cases hp : c = '$' ∧ (a ++ '$' :: '$' :: b').head? = some '$'
    · rw [if_pos hp] at h
      simp at h
    · rw [if_neg hp] at h
      have hs : strstr (a ++ '$' :: '$' :: b') marker = some a.length := by
        cases hh : strstr (a ++ '$' :: '$' :: b') marker with
        | none => rw [hh] at h; cases h
        | some j =>
          rw [hh] at h
          simp only [Option.map_some', Option.some.injEq, List.length_cons] at h
          rw [show j = a.length by omega]
      obtain ⟨hclean, hexp, hcount⟩ := ih hs
      obtain ⟨x, xs, hx⟩ : ∃ x xs, a ++ '$' :: '$' :: b' = x :: xs := by
        cases a with
        | nil => exact ⟨_, _, rfl⟩
        | cons y ys => exact ⟨_, _, rfl⟩
      refine ⟨?_, ?_, ?_⟩
      · intro y
        rw [List.cons_append, strstr_cons, hclean y]
        have hnp : ¬ (c = '$' ∧ (a ++ y).head? = some '$') := by
          rintro ⟨hc, hh⟩
          apply hp
          refine ⟨hc, ?_⟩
          cases a with
          | nil => rfl
          | cons z zs => simpa using hh
        rw [if_neg hnp]
        cases strstr y marker with
        | none => rfl
        | some i => simp [Nat.add_assoc]
      · rw [List.cons_append, hx, expand, ← hx, hexp]
        rw [hx] at hp
        simp only [List.head?_cons, Option.some.injEq] at hp
        rw [if_neg hp]
        rfl
      · rw [List.cons_append]
        unfold countOcc at hcount ⊢
        rw [countFrom, if_neg, hcount]
        rintro ⟨-, hpre⟩
        exact hp ((marker_prefix_cons _ _).mp hpre)

/-- Without an occurrence of the marker there is nothing to expand. -/
theorem no_occurrence (pid : List Char) :
    ∀ b : List Char, strstr b marker = none →
      expand pid b = b ∧ countOcc marker b = 0 := by
  intro b
  induction b with
  | nil => intro _; exact ⟨rfl, rfl⟩
  | cons c cs ih =>
    intro h
    rw [strstr_cons] at h
    by_cases hp : c = '$' ∧ cs.head? = some '$'
    · rw [if_pos hp] at h; cases h
    · rw [if_neg hp] at h
      have hs : strstr cs marker = none := by
        cases hh : strstr cs marker with
        | none => rfl
        | some j => rw [hh] at h; cases h
      obtain ⟨hexp, hcount⟩ := ih hs
      constructor
      · cases cs with
        | nil => rfl
        | cons d rest =>
          simp only [List.head?_cons, Option.some.injEq] at hp
          rw [expand, if_neg hp, hexp]
      · unfold countOcc at hcount ⊢
        rw [countFrom, if_neg, hcount]
        rintro ⟨-, hpre⟩
        exact hp ((marker_prefix_cons _ _).mp hpre)

/-! ### Variable expansion: one call of `varExp` on the buffer -/

theorem cstr_zero (s junk : List Char) (h : NUL ∉ s) : cstr (s ++ NUL :: junk) 0 = s := by
  have := cstr_token [] s junk h
  simpa using this

theorem varExp_none (s junk pid : List Char) (hnul : NUL ∉ s)
    (h : strstr s marker = none) :
    varExp (s ++ NUL :: junk) marker pid = some (0, s ++ NUL :: junk) := by
  unfold varExp
  rw [if_pos (by simp), cstr_zero s junk hnul, h]

theorem memmove_block (x y z : List Char) (dst : Nat)
    (hdst : dst + y.length ≤ (x ++ (y ++ z)).length) :
    memmove (x ++ (y ++ z)) dst x.length y.length
      = some ((x ++ (y ++ z)).take dst ++ y ++ (x ++ (y ++ z)).drop (dst + y.length)) := by
  unfold memmove
  rw [if_pos ⟨by simp only [List.length_append]; omega, hdst⟩, List.drop_left, List.take_left]

theorem memmoveFrom_block (t y d data : List Char) (k : Nat) (hk : k + data.length = t.length) :
    memmoveFrom (t ++ (y ++ d)) k data = some (t.take k ++ data ++ (y ++ d)) := by
  unfold memmoveFrom
  rw [if_pos (by simp only [List.length_append]; omega), hk, List.drop_left,
    List.take_append_of_le_length (by omega)]

/-- One call of `varExp` that finds the marker: the first occurrence is
replaced, what follows it is shifted, and the array keeps its size. -/
theorem varExp_some (a b' junk pid : List Char)
    (hnul : NUL ∉ a ++ '$' :: '$' :: b')
    (hfirst : strstr (a ++ '$' :: '$' :: b') marker = some a.length)
    (hfit : a.length + pid.length + b'.length + 1 ≤ ((a ++ '$' :: '$' :: b') ++ NUL :: junk).length) :
    ∃ junk', varExp ((a ++ '$' :: '$' :: b') ++ NUL :: junk) marker pid
          = some (1, (a ++ (pid ++ b')) ++ NUL :: junk')
      ∧ ((a ++ (pid ++ b')) ++ NUL :: junk').length
          = ((a ++ '$' :: '$' :: b') ++ NUL :: junk).length := by
  have hnul2 : NUL ∉ '$' :: '$' :: b' := fun h => hnul (List.mem_append_right _ h)
  have hc0 := cstr_zero _ junk hnul
  have hc1 : cstr ((a ++ '$' :: '$' :: b') ++ NUL :: junk) a.length = '$' :: '$' :: b' := by
    rw [List.append_assoc]
    exact cstr_token a _ junk hnul2
  -- the array as three blocks: up to the text to shift, that text with its NUL, the rest
  have hsrc : (a ++ '$' :: '$' :: b') ++ NUL :: junk
      = (a ++ marker) ++ ((b' ++ [NUL]) ++ junk) := by
    simp [marker]
  have hlen1 : (a ++ marker).length = a.length + marker.length := by simp
  have hlen2 : (b' ++ [NUL]).length = b'.length + 1 := by simp
  have hsize : ('$' :: '$' :: b').length - marker.length + 1 = (b' ++ [NUL]).length := by
    simp [marker]
  have hmm := memmove_block (a ++ marker) (b' ++ [NUL]) junk (a.length + pid.length)
    (by rw [← hsrc, hlen2]; omega)
  rw [hlen1] at hmm
  generalize hT : ((a ++ marker) ++ ((b' ++ [NUL]) ++ junk)).take (a.length + pid.length) = T at hmm
  generalize hD : ((a ++ marker) ++ ((b' ++ [NUL]) ++ junk)).drop
      (a.length + pid.length + (b' ++ [NUL]).length) = D at hmm
  have hTlen : T.length = a.length + pid.length := by
    rw [← hT, List.length_take, ← hsrc]
    omega
  have hTa : T.take a.length = a := by
    rw [← hT, List.take_take, Nat.min_eq_left (by omega), List.append_assoc, List.take_left]
  have hDlen : D.length + (a.length + pid.length + (b'.length + 1))
      = ((a ++ '$' :: '$' :: b') ++ NUL :: junk).length := by
    rw [← hD, List.length_drop, hlen2, ← hsrc]
    omega
  have hmf := memmoveFrom_block T (b' ++ [NUL]) D pid a.length (by omega)
  rw [hTa] at hmf
  refine ⟨D, ?_, ?_⟩
  · unfold varExp
    rw [if_pos (by simp), hc0, hfirst]
    simp only [hc1, hsize]
    rw [hsrc, hmm]
    simp only [List.append_assoc] at hmf ⊢
    rw [hmf]
    simp
  · rw [← hDlen]
    simp only [List.length_append, List.length_cons]
    omega

/-! ### Variable expansion: the loop of `main` -/

theorem two_step_induction {P : List Char → Prop} (h0 : P []) (h1 : ∀ c, P [c])
    (h2 : ∀ c d rest, P rest → P (d :: rest) → P (c :: d :: rest)) : ∀ l, P l := by
  have key : ∀ l, P l ∧ ∀ c, P (c :: l) := by
    intro l
    induction l with
    | nil => exact ⟨h0, h1⟩
    | cons d rest ih => exact ⟨ih.2 d, fun c => h2 c d rest ih.1 (ih.2 d)⟩
  exact fun l => (key l).1

theorem expand_length_le (pid : List Char) (hpid : 2 ≤ pid.length) :
    ∀ b, b.length ≤ (expand pid b).length := by
  apply two_step_induction
  · simp [expand]
  · intro c; simp [expand]
  · intro c d rest ih1 ih2
    rw [expand]
    split
    · simp only [List.length_append, List.length_cons]
      omega
    · simp only [List.length_cons] at ih2 ⊢
      omega

theorem IsPidText.dollar_free {pid : List Char} (h : IsPidText pid) : '$' ∉ pid :=
  fun hm => absurd (h.2 '$' hm) (by decide)

theorem IsPidText.nul_free {pid : List Char} (h : IsPidText pid) : NUL ∉ pid :=
  fun hm => absurd (h.2 NUL hm) (by decide)

/-- The loop of `main` started on a buffer whose string is `d ++ b`, `d`
being already expanded: with enough fuel and room it ends, leaving `d`
followed by the one-pass expansion of `b`, without any marker. -/
theorem expandLoop_spec (pid : List Char) (hpid : IsPidText pid) :
    ∀ (fuel : Nat) (d b junk : List Char), Clean d → NUL ∉ d ++ b →
      countOcc marker b < fuel →
      d.length + (expand pid b).length + 1 ≤ ((d ++ b) ++ NUL :: junk).length →
      ∃ junk', expandLoop fuel ((d ++ b) ++ NUL :: junk) pid
            = Run.ok ((d ++ expand pid b) ++ NUL :: junk')
        ∧ strstr (d ++ expand pid b) marker = none := by
  intro fuel
  induction fuel with
  | zero => intro d b junk _ _ h _; omega
  | succ fuel ih =>
    intro d b junk hclean hnul hfuel hfit
    rw [expandLoop]
    cases hs : strstr b marker with
    | none =>
      have hall : strstr (d ++ b) marker = none := by rw [hclean b, hs]; rfl
      obtain ⟨hexp, -⟩ := no_occurrence pid b hs
      rw [varExp_none (d ++ b) junk pid hnul hall, hexp]
      exact ⟨junk, by simp, hall⟩
    | some i =>
      obtain ⟨a, b', hb, hai⟩ := strstr_some_split b i hs
      subst hb
      subst hai
      obtain ⟨hca, hexp, hcount⟩ := first_occurrence pid b' a hs
      have hda : strstr ((d ++ a) ++ '$' :: '$' :: b') marker = some (d ++ a).length := by
        rw [List.append_assoc, hclean _, hs]
        simp [Nat.add_comm]
      have hnul' : NUL ∉ (d ++ a) ++ '$' :: '$' :: b' := by
        rw [List.append_assoc]; exact hnul
      have hroom : (d ++ a).length + pid.length + b'.length + 1
          ≤ (((d ++ a) ++ '$' :: '$' :: b') ++ NUL :: junk).length := by
        rw [hexp] at hfit
        simp only [List.length_append, List.length_cons] at hfit ⊢
        by_cases h2 : 2 ≤ pid.length
        · have := expand_length_le pid h2 b'
          omega
        · omega
      obtain ⟨junk1, hv, hlen⟩ := varExp_some (d ++ a) b' junk pid hnul' hda hroom
      have hbuf : (d ++ (a ++ '$' :: '$' :: b')) ++ NUL :: junk
          = ((d ++ a) ++ '$' :: '$' :: b') ++ NUL :: junk := by simp
      rw [hbuf, hv]
      simp only [one_ne_zero, if_false]
      have hbuf2 : ((d ++ a) ++ (pid ++ b')) ++ NUL :: junk1
          = (((d ++ a) ++ pid) ++ b') ++ NUL :: junk1 := by simp
      have hclean' : Clean ((d ++ a) ++ pid) :=
        (hclean.append hca).append (Clean.of_no_dollar pid hpid.dollar_free)
      have hnul'' : NUL ∉ ((d ++ a) ++ pid) ++ b' := by
        intro hm
        simp only [List.mem_append] at hm
        apply hnul
        rcases hm with ((h | h) | h) | h
        · exact List.mem_append_left _ h
        · exact List.mem_append_right _ (List.mem_append_left _ h)
        · exact absurd h hpid.nul_free
        · exact List.mem_append_right _ (List.mem_append_right _ (by simp [h]))
      have hfit' : ((d ++ a) ++ pid).length + (expand pid b').length + 1
          ≤ ((((d ++ a) ++ pid) ++ b') ++ NUL :: junk1).length := by
        rw [← hbuf2, hlen, ← hbuf]
        rw [hexp] at hfit
        simp only [List.length_append, List.length_cons] at hfit ⊢
        omega
      obtain ⟨junk2, hloop, hnone⟩ := ih ((d ++ a) ++ pid) b' junk1 hclean' hnul''
        (by omega) hfit'
      rw [hbuf2, hloop, hexp]
      refine ⟨junk2, by simp, ?_⟩
      simpa using hnone

/-! ### Variable expansion: pieces and occurrences -/

theorem splitAtMarker_ne_nil : ∀ l, splitAtMarker l ≠ [] := by
  apply two_step_induction
  · simp [splitAtMarker]
  · intro c; simp [splitAtMarker]
  · intro c d rest _ ih
    rw [splitAtMarker]
    split
    · simp
    · cases hs : splitAtMarker (d :: rest) with
      | nil => exact absurd hs ih
      | cons t ts => simp

theorem intercalate_cons_cons (q t u : List Char) (us : List (List Char)) :
    q.intercalate (t :: u :: us) = t ++ q ++ q.intercalate (u :: us) := by
  simp [List.intercalate, List.intersperse]

theorem intercalate_cons_head (q : List Char) (c : Char) (t : List Char)
    (ts : List (List Char)) :
    q.intercalate ((c :: t) :: ts) = c :: q.intercalate (t :: ts) := by
  cases ts with
  | nil => simp [List.intercalate, List.intersperse]
  | cons u us => rw [intercalate_cons_cons, intercalate_cons_cons]; rfl

/-- The one-pass expansion is the pieces of the line joined by the
replacement. -/
theorem expand_eq_intercalate (q : List Char) :
    ∀ l, expand q l = q.intercalate (splitAtMarker l) := by
  apply two_step_induction
  · simp [expand, splitAtMarker, List.intercalate, List.intersperse]
  · intro c; simp [expand, splitAtMarker, List.intercalate, List.intersperse]
  · intro c d rest ih1 ih2
    rw [expand, splitAtMarker]
    by_cases h : c = '$' ∧ d = '$'
    · rw [if_pos h, if_pos h, ih1]
      cases hs : splitAtMarker rest with
      | nil => exact absurd hs (splitAtMarker_ne_nil rest)
      | cons t ts => rw [intercalate_cons_cons]; rfl
    · rw [if_neg h, if_neg h, ih2]
      cases hs : splitAtMarker (d :: rest) with
      | nil => exact absurd hs (splitAtMarker_ne_nil _)
      | cons t ts => exact (intercalate_cons_head q c t ts).symm

theorem expand_marker : ∀ l, expand marker l = l := by
  apply two_step_induction
  · rfl
  · intro c; rfl
  · intro c d rest ih1 ih2
    rw [expand]
    by_cases h : c = '$' ∧ d = '$'
    · rw [if_pos h, ih1, h.1, h.2]; rfl
    · rw [if_neg h, ih2]

theorem countOcc_marker_cons (c : Char) (cs : List Char) :
    countOcc marker (c :: cs)
      = if c = '$' ∧ cs.head? = some '$' then countOcc marker (cs.drop 1) + 1
        else countOcc marker cs := by
  unfold countOcc
  rw [countFrom]
  by_cases h : c = '$' ∧ cs.head? = some '$'
  · rw [if_pos ⟨by simp [marker], (marker_prefix_cons c cs).mpr h⟩, if_pos h]
    cases cs with
    | nil => simp at h
    | cons d rest => simp [marker, countFrom]; omega
  · rw [if_neg (fun hp => h ((marker_prefix_cons c cs).mp hp.2)), if_neg h]

theorem splitAtMarker_length : ∀ l, (splitAtMarker l).length = countOcc marker l + 1 := by
  apply two_step_induction
  · rfl
  · intro c
    rw [countOcc_marker_cons]
    simp [splitAtMarker, countOcc, countFrom]
  · intro c d rest ih1 ih2
    rw [splitAtMarker, countOcc_marker_cons]
    by_cases h : c = '$' ∧ d = '$'
    · rw [if_pos h, if_pos (by simpa using h)]
      simp [ih1]
    · rw [if_neg h, if_neg (by simpa using h), ← ih2]
      cases hs : splitAtMarker (d :: rest) with
      | nil => exact absurd hs (splitAtMarker_ne_nil _)
      | cons t ts => rfl

theorem countFrom_skip (pat x : List Char) :
    ∀ y : List Char, countFrom pat y.length (y ++ x) = countFrom pat 0 x := by
  intro y
  induction y with
  | nil => rfl
  | cons c cs ih => rw [List.length_cons, List.cons_append, countFrom, ih]

theorem countOcc_prefix (pat x : List Char) (h : pat ≠ []) :
    countOcc pat (pat ++ x) = countOcc pat x + 1 := by
  unfold countOcc
  cases pat with
  | nil => exact absurd rfl h
  | cons p ps =>
    rw [List.cons_append, countFrom,
      if_pos ⟨h, List.isPrefixOf_iff_prefix.mpr ⟨x, rfl⟩⟩]
    simp only [List.length_cons, Nat.add_sub_cancel]
    rw [countFrom_skip]
    omega

theorem countOcc_other (p c : Char) (ps x : List Char) (h : c ≠ p) :
    countOcc (p :: ps) (c :: x) = countOcc (p :: ps) x := by
  unfold countOcc
  rw [countFrom, if_neg]
  rintro ⟨-, hpre⟩
  rw [List.isPrefixOf_iff_prefix] at hpre
  obtain ⟨t, ht⟩ := hpre
  simp only [List.cons_append, List.cons.injEq] at ht
  exact h ht.1.symm

/-- In a line without digit the expansion has as many occurrences of the
pid text as the line has markers. -/
theorem countOcc_expand (pid : List Char) (hpid : IsPidText pid) :
    ∀ l : List Char, (∀ c ∈ l, c.isDigit = false) →
      countOcc pid (expand pid l) = countOcc marker l := by
  obtain ⟨p, ps, hp⟩ : ∃ p ps, pid = p :: ps := by
    cases pid with
    | nil => exact absurd rfl hpid.1
    | cons p ps => exact ⟨p, ps, rfl⟩
  have hpd : p.isDigit = true := hpid.2 p (by rw [hp]; simp)
  have hne : ∀ l : List Char, (∀ c ∈ l, c.isDigit = false) → ∀ c ∈ l, c ≠ p := by
    intro l hl c hc e
    have := hl c hc
    rw [e, hpd] at this
    cases this
  apply two_step_induction
  · intro _; rfl
  · intro c hl
    rw [expand, hp, countOcc_other p c ps [] (hne _ hl c (by simp)), countOcc_marker_cons]
    simp [countOcc, countFrom]
  · intro c d rest ih1 ih2 hl
    have hl1 : ∀ x ∈ rest, x.isDigit = false := fun x hx => hl x (by simp [hx])
    have hl2 : ∀ x ∈ d :: rest, x.isDigit = false := fun x hx => hl x (by simp [hx])
    rw [expand, countOcc_marker_cons]
    by_cases h : c = '$' ∧ d = '$'
    · rw [if_pos h, if_pos (by simpa using h), countOcc_prefix pid _ hpid.1, ih1 hl1]
      rfl
    · rw [if_neg h, if_neg (by simpa using h), ← ih2 hl2, hp,
        countOcc_other p c ps _ (hne _ hl c (by simp))]

/-- C1, as the code has it: for a line with `k` occurrences of `$$` (from
left to right, without overlap) and the decimal text of a pid, when the
expanded line fits in the buffer the loop of `main` ends and leaves the
pieces of the line, in their order, joined by the pid text instead of the
marker; no `$$` is left; and the pid text occurs exactly `k` times when the
line holds no digit. -/
theorem varExp_loop_expands (line pid junk : List Char) (fuel : Nat)
    (hnul : NUL ∉ line) (hpid : IsPidText pid)
    (hfit : (pid.intercalate (splitAtMarker line)).length < (line ++ NUL :: junk).length)
    (hfuel : countOcc marker line < fuel) :
    line = marker.intercalate (splitAtMarker line)
    ∧ (splitAtMarker line).length = countOcc marker line + 1
    ∧ (∃ junk', expandLoop fuel (line ++ NUL :: junk) pid
        = Run.ok (pid.intercalate (splitAtMarker line) ++ NUL :: junk'))
    ∧ countOcc marker (pid.intercalate (splitAtMarker line)) = 0
    ∧ ((∀ c ∈ line, c.isDigit = false) →
        countOcc pid (pid.intercalate (splitAtMarker line)) = countOcc marker line) := by
  rw [← expand_eq_intercalate] at hfit ⊢
  rw [← expand_eq_intercalate, expand_marker]
  obtain ⟨junk', hloop, hnone⟩ := expandLoop_spec pid hpid fuel [] line junk Clean.nil
    (by simpa using hnul) hfuel (by simp only [List.length_nil, List.nil_append]; omega)
  simp only [List.nil_append] at hloop hnone
  exact ⟨rfl, splitAtMarker_length line, ⟨junk', hloop⟩,
    (no_occurrence pid _ hnone).2, countOcc_expand pid hpid line⟩

theorem varExp_loop_expands_witness :
    IsPidText "123".toList
    ∧ countOcc marker "echo $$ $$".toList = 2
    ∧ countOcc marker ("123".toList.intercalate (splitAtMarker "echo $$ $$".toList)) = 0
    ∧ countOcc "123".toList ("123".toList.intercalate (splitAtMarker "echo $$ $$".toList)) = 2 :=
  ⟨by decide, by decide,
   (varExp_loop_expands "echo $$ $$".toList "123".toList [NUL, NUL] 3 (by decide) (by decide)
      (by decide) (by decide)).2.2.2.1,
   (varExp_loop_expands "echo $$ $$".toList "123".toList [NUL, NUL] 3 (by decide) (by decide)
      (by decide) (by decide)).2.2.2.2 (by decide)⟩

/-- Without room for the expansion the first `memmove` of `varExp` writes
past the array, which is a fault: here an array of three bytes holds `$$`
and the pid text has three characters. -/
theorem expandLoop_overflow_example :
    expandLoop 2 ("$$".toList ++ [NUL]) "123".toList = Run.fault := by
  decide

/-- C1 as stated fails at the line `echo 42 $$` for the pid 42: the line
has one marker, the loop leaves `echo 42 42`, and the pid text occurs twice
in it. -/
theorem varExp_count_counterexample :
    IsPidText "42".toList
    ∧ countOcc marker "echo 42 $$".toList = 1
    ∧ expandLoop 2 ("echo 42 $$".toList ++ [NUL]) "42".toList
        = Run.ok ("echo 42 42".toList ++ [NUL])
    ∧ countOcc marker "echo 42 42".toList = 0
    ∧ countOcc "42".toList "echo 42 42".toList = 2
    ∧ countOcc "42".toList "echo 42 42".toList ≠ countOcc marker "echo 42 $$".toList := by
  decide

end Smallsh
